import Mathlib

/-!
# Data inspector codecs of `plugins/builtin/source/content/data_inspector.cpp`

A shallow embedding of the byte/text conversions registered by
`registerDataInspectorEntries`, and theorems about them.

Conventions of the embedding:

* a byte window (`std::vector<u8>`) is a `List UInt8`;
* a text (`std::string`) is a `String`; the characters the integer codecs look at
  are ASCII, every other character behaves like a byte that is neither a digit,
  a sign nor white space;
* machine integers are `Nat`/`Int` with explicit wrap-around at the width of the
  C++ type;
* the host is little-endian (`std::endian::native == std::endian::little`), as the
  source's `memcpy` between integers and byte vectors presupposes;
* an encoder's failure is the empty byte vector (`return { }`), a decoder's failure is
  the empty string (`return { }`).
-/

namespace DataInspector

/-! ## Data model -/

/-- The byte order `std::endian`. -/
inductive Endian where
  | little
  | big
deriving DecidableEq, Repr

/-- The host byte order, `std::endian::native`. -/
def Endian.native : Endian := Endian.little

/-- The display style `ContentRegistry::DataInspector::NumberDisplayStyle`. -/
inductive Style where
  | Decimal
  | Hexadecimal
  | Octal
deriving DecidableEq, Repr

/-- An integral C++ type `T` as the templates see it: its signedness and `sizeof(T)`. -/
structure IntType where
  signed : Bool
  bytes : Nat
deriving DecidableEq, Repr

def u8 : IntType := ⟨false, 1⟩
def i8 : IntType := ⟨true, 1⟩
def u16 : IntType := ⟨false, 2⟩
def i16 : IntType := ⟨true, 2⟩
def u32 : IntType := ⟨false, 4⟩
def i32 : IntType := ⟨true, 4⟩
def u64 : IntType := ⟨false, 8⟩
def i64 : IntType := ⟨true, 8⟩

/-- The number of bits of `T`. -/
def IntType.bits (T : IntType) : Nat := 8 * T.bytes

/-- The value `std::numeric_limits<T>::max()`. -/
def IntType.max (T : IntType) : Int :=
  if T.signed then 2 ^ (T.bits - 1) - 1 else 2 ^ T.bits - 1

/-- The value `std::numeric_limits<T>::min()`. -/
def IntType.min (T : IntType) : Int :=
  if T.signed then -(2 ^ (T.bits - 1)) else 0

/-- The two's-complement reading of the low `bits` bits of `n`. -/
def toSigned (bits : Nat) (n : Int) : Int :=
  let m := n % 2 ^ bits
  if m < 2 ^ (bits - 1) then m else m - 2 ^ bits

/-! ## The C library: `strtoull`, `strtoll` with base 0 -/

/-- The C locale `isspace`. -/
def isspace (c : Char) : Bool :=
  c == ' ' || c == '\t' || c == '\n' || c == '\x0b' || c == '\x0c' || c == '\r'

/-- The value of a character as a digit (`0-9`, `a-z`, `A-Z`), if it is one. -/
def digitValue (c : Char) : Option Nat :=
  if 48 ≤ c.toNat ∧ c.toNat ≤ 57 then some (c.toNat - 48)
  else if 97 ≤ c.toNat ∧ c.toNat ≤ 122 then some (c.toNat - 87)
  else if 65 ≤ c.toNat ∧ c.toNat ≤ 90 then some (c.toNat - 55)
  else none

/-- Reads the longest run of digits of `base` at the head of the text, accumulating
their value onto `acc`. -/
def accumulate (base : Nat) : List Char → Nat → Nat
  | [], acc => acc
  | c :: cs, acc =>
    match digitValue c with
    | some d => if d < base then accumulate base cs (acc * base + d) else acc
    | none => acc

/-- Skips an optional sign; the flag says whether it was `-`. -/
def takeSign : List Char → Bool × List Char
  | '-' :: r => (true, r)
  | '+' :: r => (false, r)
  | s => (false, s)

/-- The digits of the subject sequence with the base detected from its prefix
(base 0 of `strtol`): `0x`/`0X` hexadecimal, a leading `0` octal, otherwise decimal.
The result is the exact magnitude; no digits give 0. -/
def magnitude : List Char → Nat
  | '0' :: x :: r =>
    if x = 'x' ∨ x = 'X' then accumulate 16 r 0 else accumulate 8 (x :: r) 0
  | s => accumulate 10 s 0

/-- The subject sequence of `strtol` and friends: white space is skipped, then a sign,
then the digits. Returns the sign and the exact magnitude. -/
def parseInteger (s : List Char) : Bool × Nat :=
  let r := takeSign (s.dropWhile isspace)
  (r.1, magnitude r.2)

/-- The call `std::strtoull(s, nullptr, 0)`: a magnitude above `ULLONG_MAX` gives
`ULLONG_MAX`, a `-` sign negates in `unsigned long long`. -/
def strtoull (s : List Char) : Nat :=
  let r := parseInteger s
  if r.2 > 2 ^ 64 - 1 then 2 ^ 64 - 1
  else if r.1 then (2 ^ 64 - r.2) % 2 ^ 64 else r.2

/-- The call `std::strtoll(s, nullptr, 0)`: values outside `long long` saturate at
`LLONG_MIN` / `LLONG_MAX`. -/
def strtoll (s : List Char) : Int :=
  let r := parseInteger s
  if r.1 then (if r.2 > 2 ^ 63 then -(2 ^ 63) else -(r.2 : Int))
  else (if r.2 > 2 ^ 63 - 1 then 2 ^ 63 - 1 else (r.2 : Int))

/-! ## Bytes and integers -/

/-- The first `size` bytes of the object representation of the unsigned value `n` on the
little-endian host: what `std::memcpy(bytes.data(), &n, size)` stores. -/
def toBytes (n : Nat) (size : Nat) : List UInt8 :=
  (List.range size).map fun i => UInt8.ofNat (n / 256 ^ i % 256)

/-- The unsigned value whose little-endian object representation is `bytes`. -/
def fromBytes : List UInt8 → Nat
  | [] => 0
  | b :: bs => b.toNat + 256 * fromBytes bs

/-- The value left in a zero-initialised integer after
`std::memcpy(&value, buffer.data(), count)`. -/
def memcpyIn (buffer : List UInt8) (count : Nat) : Nat :=
  fromBytes (buffer.take count)

/-- Modelled from the spec: `hex::changeEndianess(value, size, endian)` of
`hex/helpers/utils.hpp`, which is defined outside this source file. "Returns the value as
if its underlying bytes were reordered to/from `order`", operating on the `size`
meaningful bytes: nothing happens for the native order, otherwise the low `size` bytes are
reversed. The value is given by its bit pattern. -/
def changeEndianess (value : Nat) (size : Nat) (endian : Endian) : Nat :=
  if endian = Endian.native then value else fromBytes (toBytes value size).reverse

/-- Modelled from the spec: `hex::signExtend(numBits, value)` of `hex/helpers/utils.hpp`,
which is defined outside this source file. "Given a signed value whose meaningful width is
`usedBits` bits, replicates the sign bit into all higher bits." -/
def signExtend (numBits : Nat) (value : Int) : Int :=
  toSigned numBits value

/-! ## The formatting library: integer presentation of `fmt` -/

/-- The digits of `n` in `base`, most significant first, letters in upper case. -/
def digits (base : Nat) (n : Nat) : List Char :=
  (Nat.toDigits base n).map Char.toUpper

/-- The replacement of an integer field `{:d}` (`width = 0`, base 10), `{:0wX}` (base 16)
or `{:0wo}` (base 8): a `-` for a negative argument, then the digits of the magnitude,
zero-filled between sign and digits up to `width` characters in all. -/
def formatInt (base : Nat) (width : Nat) (n : Int) : List Char :=
  let sign : List Char := if n < 0 then ['-'] else []
  let ds := digits base n.natAbs
  sign ++ List.replicate (width - sign.length - ds.length) '0' ++ ds

/-! ## Text to bytes -/

/-- The template `stringToUnsigned<T, Size>`. -/
def stringToUnsigned (T : IntType) (Size : Nat) (value : String) (endian : Endian) :
    List UInt8 :=
  let result := strtoull value.data
  if (result : Int) > T.max then []
  else
    let bytes := toBytes result Size
    if endian ≠ Endian.native then bytes.reverse else bytes

/-- The template `stringToSigned<T, Size>`. The bytes copied are those of the `i64`
result, that is of its two's-complement pattern. -/
def stringToSigned (T : IntType) (Size : Nat) (value : String) (endian : Endian) :
    List UInt8 :=
  let result := strtoll value.data
  if result > T.max ∨ result < T.min then []
  else
    let bytes := toBytes (result % 2 ^ 64).toNat Size
    if endian ≠ Endian.native then bytes.reverse else bytes

/-- The template `stringToInteger<T, Size>`. -/
def stringToInteger (T : IntType) (Size : Nat) (value : String) (endian : Endian) :
    List UInt8 :=
  if T.signed then stringToSigned T Size value endian
  else stringToUnsigned T Size value endian

/-! ## Bytes to text -/

/-- The base of a display style. -/
def Style.base : Style → Nat
  | Style.Decimal => 10
  | Style.Hexadecimal => 16
  | Style.Octal => 8

/-- The field width the source computes for a style: none for decimal, `Size * 2` for
hexadecimal, `Size * 3` for octal. -/
def Style.width (style : Style) (Size : Nat) : Nat :=
  match style with
  | Style.Decimal => 0
  | Style.Hexadecimal => Size * 2
  | Style.Octal => Size * 3

/-- The literal prefix of the number in the format string of a style. -/
def Style.pre : Style → List Char
  | Style.Decimal => []
  | Style.Hexadecimal => ['0', 'x']
  | Style.Octal => ['0', 'o']

/-- The template `unsignedToString<T, Size>`. -/
def unsignedToString (T : IntType) (Size : Nat) (buffer : List UInt8) (endian : Endian)
    (style : Style) : String :=
  if buffer.length < Size then ""
  else
    let value := memcpyIn buffer (Nat.min T.bytes Size)
    let number := changeEndianess value Size endian
    String.mk (style.pre ++ formatInt style.base (style.width Size) number)

/-- The call `std::abs(number)` for `number` of type `T`: a type narrower than `int` is
promoted to `int`, and the result wraps around at the width of the result type (so the
most negative `int` or `long` is returned unchanged). -/
def stdAbs (T : IntType) (number : Int) : Int :=
  toSigned (8 * Nat.max T.bytes 4) (Int.natAbs number)

/-- The template `signedToString<T, Size>`. -/
def signedToString (T : IntType) (Size : Nat) (buffer : List UInt8) (endian : Endian)
    (style : Style) : String :=
  if buffer.length < Size then ""
  else
    let value := memcpyIn buffer (Nat.min T.bytes Size)
    let number := toSigned T.bits (changeEndianess value Size endian)
    let number := if Size ≠ T.bytes then toSigned T.bits (signExtend (Size * 8) number)
      else number
    let negative := decide (number < 0)
    String.mk ((if negative then ['-'] else []) ++ style.pre ++
      formatInt style.base (style.width Size) (stdAbs T number))

/-- The template `integerToString<T, Size>`. -/
def integerToString (T : IntType) (Size : Nat) (buffer : List UInt8) (endian : Endian)
    (style : Style) : String :=
  if T.signed then signedToString T Size buffer endian style
  else unsignedToString T Size buffer endian style

/-! ## The registered fixed-width integer entries -/

/-- A fixed-width integer entry: identifier, the template arguments `T` and `Size`; the
required size passed to `ContentRegistry::DataInspector::add` is `Size`. -/
structure IntEntry where
  name : String
  T : IntType
  Size : Nat
deriving DecidableEq, Repr

/-- The fixed-width integer entries in registration order. -/
def integerEntries : List IntEntry :=
  [ ⟨"hex.builtin.inspector.u8", u8, 1⟩,
    ⟨"hex.builtin.inspector.i8", i8, 1⟩,
    ⟨"hex.builtin.inspector.u16", u16, 2⟩,
    ⟨"hex.builtin.inspector.i16", i16, 2⟩,
    ⟨"hex.builtin.inspector.u24", u32, 3⟩,
    ⟨"hex.builtin.inspector.i24", i32, 3⟩,
    ⟨"hex.builtin.inspector.u32", u32, 4⟩,
    ⟨"hex.builtin.inspector.i32", i32, 4⟩,
    ⟨"hex.builtin.inspector.u48", u64, 6⟩,
    ⟨"hex.builtin.inspector.i48", i64, 6⟩,
    ⟨"hex.builtin.inspector.u64", u64, 8⟩,
    ⟨"hex.builtin.inspector.i64", i64, 8⟩ ]

/-- The decode operation of an integer entry. -/
def IntEntry.decode (e : IntEntry) (buffer : List UInt8) (endian : Endian) (style : Style) :
    String :=
  integerToString e.T e.Size buffer endian style

/-- The encode operation of an integer entry. -/
def IntEntry.encode (e : IntEntry) (value : String) (endian : Endian) : List UInt8 :=
  stringToInteger e.T e.Size value endian

/-! ## Notions used in the statements -/

/-- The text starts, after white space and an optional sign, with a decimal digit: the
weakest condition under which `strtoull`/`strtoll` convert anything at all. -/
def startsWithDigit (s : List Char) : Bool :=
  match (takeSign (s.dropWhile isspace)).2 with
  | [] => false
  | c :: _ => decide (48 ≤ c.toNat ∧ c.toNat ≤ 57)

/-- The integer a window stands for: its first `W` bytes read in the given byte order,
as an unsigned number or in two's complement. -/
def windowValue (signed : Bool) (W : Nat) (window : List UInt8) (order : Endian) : Int :=
  let bytes := window.take W
  let u : Int := fromBytes (if order = Endian.little then bytes else bytes.reverse)
  if signed then toSigned (8 * W) u else u

/-- The value `result` the encoder of an integer type parses from a text: that of
`strtoll` for a signed type, of `strtoull` for an unsigned one. -/
def parsedValue (T : IntType) (text : String) : Int :=
  if T.signed then strtoll text.data else (strtoull text.data : Int)

/-- The values of a two's-complement (signed entry) or unsigned integer of `Size` bytes. -/
def IntEntry.inRange (e : IntEntry) (v : Int) : Prop :=
  if e.T.signed then -(2 ^ (8 * e.Size - 1)) ≤ v ∧ v < 2 ^ (8 * e.Size - 1)
  else 0 ≤ v ∧ v < 2 ^ (8 * e.Size)

instance (e : IntEntry) (v : Int) : Decidable (e.inRange v) :=
  inferInstanceAs (Decidable (if e.T.signed then _ else _))

/-! ## The binary entry -/

/-- Decode of `hex.builtin.inspector.binary`: `hex::format("0b{:08b}", buffer[0])`. The
source reads `buffer[0]` without looking at the size of the window; `none` stands for
that read leaving an empty window, which has no defined result. -/
def binaryDecode (buffer : List UInt8) (_endian : Endian) (_style : Style) : Option String :=
  match buffer with
  | [] => none
  | b :: _ => some (String.mk (['0', 'b'] ++ formatInt 2 8 b.toNat))

/-- The loop of the binary encoder over the characters of `copy`: shift the `u8`
accumulator, set the low bit for `1`, leave it for `0`, give up on anything else. -/
def binaryLoop : List Char → Nat → Option Nat
  | [], byte => some byte
  | c :: cs, byte =>
    let byte := byte * 2 % 256
    if c = '1' then binaryLoop cs (byte ||| 1)
    else if c = '0' then binaryLoop cs (byte ||| 0)
    else none

/-- Encode of `hex.builtin.inspector.binary`. The length test looks at `value`, the text
as given, not at `copy`, the text without its `0b`. -/
def binaryEncode (value : String) (_endian : Endian) : List UInt8 :=
  let copy := match value.data with
    | '0' :: 'b' :: r => r
    | s => s
  if value.utf8ByteSize > 8 then []
  else
    match binaryLoop copy 0 with
    | some byte => [UInt8.ofNat byte]
    | none => []

/-! ## The wide character entry -/

/-- The size `sizeof(wchar_t)` on the host modelled here (a 32-bit signed `wchar_t`). -/
def wcharSize : Nat := 4

/-- The call `converter.to_bytes(c)` of
`std::wstring_convert<std::codecvt_utf8<wchar_t>> converter("Invalid")`: the UTF-8 text of
the code point `c`, or the converter's error text when `c` is negative or above 0x10FFFF.
For a surrogate (0xD800..0xDFFF) the outcome depends on the library: libstdc++ emits three
bytes that are no UTF-8 text and that a `String` cannot hold; the embedding gives the error
text there, and no theorem below relies on that case. -/
def to_bytes (c : Int) : String :=
  if (0 ≤ c ∧ c < 0xD800) ∨ (0xDFFF < c ∧ c ≤ 0x10FFFF) then
    String.singleton (Char.ofNat c.toNat)
  else "Invalid"

/-- Decode of `hex.builtin.inspector.wide`. The "make printable" transform of
`hex/helpers/utils.hpp` is defined outside this source file and is a parameter; it takes
its argument as a `u8`. The copy into `wideChar` is bounded by the size of the window. -/
def wideDecode (makePrintable : Nat → String) (buffer : List UInt8) (endian : Endian)
    (_style : Style) : String :=
  let wideChar := memcpyIn buffer (Nat.min wcharSize buffer.length)
  let c := toSigned (8 * wcharSize) (changeEndianess wideChar wcharSize endian)
  if c ≤ 255 then makePrintable (c % 256).toNat else to_bytes c

/-- The text of the binary encoder without an optional leading `0b`: the `copy` the loop
of the encoder runs over. -/
def withoutLeading0b (value : String) : List Char :=
  match value.data with
  | '0' :: 'b' :: r => r
  | s => s

/-- Whether the text starts with `0b`. -/
def hasLeading0b (value : String) : Bool :=
  match value.data with
  | '0' :: 'b' :: _ => true
  | _ => false

/-! ## The boolean and the ASCII character entry -/

/-- Decode of `hex.builtin.inspector.bool`: the `switch` on `buffer[0]` with the cases
`false`, `true` and `default`. The source reads `buffer[0]` without looking at the size of
the window; `none` stands for that read leaving an empty window. -/
def boolDecode (buffer : List UInt8) (_endian : Endian) (_style : Style) : Option String :=
  match buffer with
  | [] => none
  | b :: _ =>
    some (if b.toNat = 0 then "false" else if b.toNat = 1 then "true" else "Invalid")

/-- The byte `u8(value[0])` of a `std::string`: the first byte of the (UTF-8) text, and the
terminating NUL when the text is empty. -/
def firstByte (value : String) : UInt8 :=
  match value.data with
  | [] => 0
  | c :: _ => (String.utf8EncodeChar c).headD 0

/-- Encode of `hex.builtin.inspector.ascii`: `value.length()` counts bytes. -/
def asciiEncode (value : String) (_endian : Endian) : List UInt8 :=
  if value.utf8ByteSize > 1 then [] else [firstByte value]

/-! ## The GUID entry -/

/-- Decode of `hex.builtin.inspector.guid`. The 16 bytes are copied into the struct
`GUID { u32 data1; u16 data2; u16 data3; u8 data4[8]; }`, which has no padding; the source
copies them without looking at the size of the window, and `none` stands for that copy
leaving a window of fewer than 16 bytes. -/
def guidDecode (buffer : List UInt8) (endian : Endian) (_style : Style) : Option String :=
  if buffer.length < 16 then none
  else
    let data1 := fromBytes (buffer.take 4)
    let data2 := fromBytes ((buffer.drop 4).take 2)
    let data3 := fromBytes ((buffer.drop 6).take 2)
    let data4 := fun i => ((buffer.drop 8).getD i 0).toNat
    let valid : Bool :=
      decide (changeEndianess data3 2 endian >>> 12 ≤ 5) &&
        (decide (data4 0 >>> 4 ≥ 8) || decide (data4 0 >>> 4 = 0))
    some (String.mk ((if valid then [] else "Invalid ".data) ++ ['{'] ++
      formatInt 16 8 (changeEndianess data1 4 endian) ++ ['-'] ++
      formatInt 16 4 (changeEndianess data2 2 endian) ++ ['-'] ++
      formatInt 16 4 (changeEndianess data3 2 endian) ++ ['-'] ++
      formatInt 16 2 (data4 0) ++ formatInt 16 2 (data4 1) ++ ['-'] ++
      formatInt 16 2 (data4 2) ++ formatInt 16 2 (data4 3) ++ formatInt 16 2 (data4 4) ++
      formatInt 16 2 (data4 5) ++ formatInt 16 2 (data4 6) ++ formatInt 16 2 (data4 7) ++
      ['}']))

/-! ## The DOS date and time entries -/

/-- The size `sizeof(DOSDate)` and `sizeof(DOSTime)` on the host modelled here. The three
bit-fields of either struct are declared `unsigned`, so they are allocated in one
`unsigned int` storage unit and the struct has the size and alignment of `unsigned int`
(x86-64 System V and Microsoft ABI alike), although only 16 bits are used. This number is
also the required size the entries are registered with. -/
def sizeofDOSStruct : Nat := 4

/-- Decode of `hex.builtin.inspector.dos_date` for a struct of `structSize` bytes:
`structSize` bytes are copied into the struct and reordered as one unit, then the
bit-fields `day : 5`, `month : 4`, `year : 7` are read from the low end of the unit. The
copy is done without looking at the size of the window; `none` stands for it leaving the
window. -/
def dosDateDecodeAt (structSize : Nat) (buffer : List UInt8) (endian : Endian)
    (_style : Style) : Option String :=
  if buffer.length < structSize then none
  else
    let date := changeEndianess (memcpyIn buffer structSize) structSize endian
    let day := date % 32
    let month := date / 32 % 16
    let year := date / 512 % 128
    some (String.mk (formatInt 10 0 day ++ ['/'] ++ formatInt 10 0 month ++ ['/'] ++
      formatInt 10 0 ((year : Int) + 1980)))

/-- Decode of `hex.builtin.inspector.dos_date`. -/
def dosDateDecode (buffer : List UInt8) (endian : Endian) (style : Style) : Option String :=
  dosDateDecodeAt sizeofDOSStruct buffer endian style

/-- Decode of `hex.builtin.inspector.dos_time` for a struct of `structSize` bytes, with the
bit-fields `seconds : 5`, `minutes : 6`, `hours : 5`. -/
def dosTimeDecodeAt (structSize : Nat) (buffer : List UInt8) (endian : Endian)
    (_style : Style) : Option String :=
  if buffer.length < structSize then none
  else
    let time := changeEndianess (memcpyIn buffer structSize) structSize endian
    let seconds := time % 32
    let minutes := time / 32 % 64
    let hours := time / 2048 % 32
    some (String.mk (formatInt 10 2 hours ++ [':'] ++ formatInt 10 2 minutes ++ [':'] ++
      formatInt 10 2 ((seconds : Int) * 2)))

/-- Decode of `hex.builtin.inspector.dos_time`. -/
def dosTimeDecode (buffer : List UInt8) (endian : Endian) (style : Style) : Option String :=
  dosTimeDecodeAt sizeofDOSStruct buffer endian style

/-- The 16-bit value of the first two bytes of a window in a byte order. -/
def word16 (buffer : List UInt8) (order : Endian) : Nat :=
  (windowValue false 2 buffer order).toNat

/-! ## The LEB128 entries -/

/-- The size `sizeof(i128)` and `sizeof(u128)`. -/
def sizeofInt128 : Nat := 16

/-- The required size `1` the LEB128 entries are registered with. -/
def leb128MinSize : Nat := 1

/-- The maximum size `(sizeof(i128) * 8 / 7) + 1` the LEB128 entries are registered with
(`size_t` arithmetic, the division truncates). -/
def leb128MaxSize : Nat := (sizeofInt128 * 8 / 7) + 1

/-- Modelled from the spec: the loop of `hex::crypt::encodeUleb128`, which is defined in
`hex/helpers/crypto.hpp` outside this source file. "Greedy 7-bit grouping from the low end,
continuation bit set on all but the last emitted byte; unsigned encode continues while
remaining magnitude is nonzero." The fuel bounds the number of groups. -/
def encodeUleb128Loop : Nat → Nat → List UInt8
  | 0, _ => []
  | fuel + 1, value =>
    let byte := value % 128
    let rest := value / 128
    if rest = 0 then [UInt8.ofNat byte]
    else UInt8.ofNat (byte + 128) :: encodeUleb128Loop fuel rest

/-- Modelled from the spec: `hex::crypt::encodeUleb128` for a `u128` argument; 19 groups
of 7 bits exhaust 128 bits. -/
def encodeUleb128 (value : Nat) : List UInt8 :=
  encodeUleb128Loop 19 (value % 2 ^ 128)

/-- Modelled from the spec: the loop of `hex::crypt::encodeSleb128`, defined outside this
source file. "Signed encode continues until the remaining sign-extended value is fully
represented (standard LEB128 termination rule: stop when the remaining value is exactly -1
or 0 and the sign bit of the last 7-bit group matches)." The shift is arithmetic. -/
def encodeSleb128Loop : Nat → Int → List UInt8
  | 0, _ => []
  | fuel + 1, value =>
    let byte := (value % 128).toNat
    let rest := value / 128
    if (rest = 0 ∧ byte < 64) ∨ (rest = -1 ∧ 64 ≤ byte) then [UInt8.ofNat byte]
    else UInt8.ofNat (byte + 128) :: encodeSleb128Loop fuel rest

/-- Modelled from the spec: `hex::crypt::encodeSleb128` for an `i128` argument. -/
def encodeSleb128 (value : Int) : List UInt8 :=
  encodeSleb128Loop 19 (toSigned 128 value)

/-- Modelled from the spec: the loop of `decodeLEB128`, defined outside this source file.
"Reads 7 bits per byte from the low end, continuation indicated by the high bit of each
byte, terminates at the first byte without the continuation bit." The state is the value
accumulated, the shift reached and the last byte consumed. -/
def decodeLeb128Loop : List UInt8 → Nat → Nat → UInt8 → Nat × Nat × UInt8
  | [], value, shift, last => (value, shift, last)
  | byte :: rest, value, shift, _ =>
    let value := value + byte.toNat % 128 * 2 ^ shift
    if byte.toNat < 128 then (value, shift + 7, byte)
    else decodeLeb128Loop rest value (shift + 7) byte

/-- Modelled from the spec: `hex::crypt::decodeUleb128`, the value as a `u128`. The window
is read "at most `maxSize` bytes" far. -/
def decodeUleb128 (buffer : List UInt8) : Nat :=
  (decodeLeb128Loop (buffer.take leb128MaxSize) 0 0 0).1 % 2 ^ 128

/-- Modelled from the spec: `hex::crypt::decodeSleb128`, the value as an `i128`: "for the
signed variant, sign-extends using the sign bit of the last consumed byte's 7-bit group". -/
def decodeSleb128 (buffer : List UInt8) : Int :=
  let r := decodeLeb128Loop (buffer.take leb128MaxSize) 0 0 0
  toSigned 128 (if 64 ≤ r.2.2.toNat % 128 then (r.1 : Int) - 2 ^ r.2.1 else (r.1 : Int))

/-- Decode of `hex.builtin.inspector.sleb128`: the sign, the literal of the style, then
`std::abs(number)` of the `i128` without a field width. -/
def sleb128Decode (buffer : List UInt8) (_endian : Endian) (style : Style) : String :=
  let number := decodeSleb128 buffer
  let negative := decide (number < 0)
  String.mk ((if negative then ['-'] else []) ++ style.pre ++
    formatInt style.base 0 (toSigned 128 (Int.natAbs number)))

/-- Encode of `hex.builtin.inspector.sleb128`. -/
def sleb128Encode (value : String) (_endian : Endian) : List UInt8 :=
  encodeSleb128 (strtoll value.data)

/-- Decode of `hex.builtin.inspector.uleb128`. -/
def uleb128Decode (buffer : List UInt8) (_endian : Endian) (style : Style) : String :=
  String.mk (style.pre ++ formatInt style.base 0 (decodeUleb128 buffer))

/-- Encode of `hex.builtin.inspector.uleb128`. -/
def uleb128Encode (value : String) (_endian : Endian) : List UInt8 :=
  encodeUleb128 (strtoull value.data)

/-! ## The wide character encoder -/

/-- The call `converter.from_bytes(value.c_str())` of
`std::wstring_convert<std::codecvt_utf8<wchar_t>>`: the wide string of the code points of
the UTF-8 text, which `c_str()` ends at the first NUL. -/
def from_bytes (value : String) : List Nat :=
  (value.data.takeWhile fun c => c.toNat ≠ 0).map Char.toNat

/-- Encode of `hex.builtin.inspector.wide`. `std::copy` through a `back_inserter` appends
one element of the `u8` vector per `wchar_t` of the wide string, each converted to `u8`
(the value modulo 256); the bytes are reversed for the non-native order. -/
def wideEncode (value : String) (endian : Endian) : List UInt8 :=
  let wideString := from_bytes value
  let bytes := wideString.map fun w => UInt8.ofNat w
  if endian ≠ Endian.native then bytes.reverse else bytes

/-- The `wchar_t`-wide bytes of a code point placed in a byte order: the window the
decoder of the wide character entry reads the code point from. -/
def widePlaced (codePoint : Nat) (order : Endian) : List UInt8 :=
  if order = Endian.little then toBytes codePoint wcharSize
  else (toBytes codePoint wcharSize).reverse

/-! ## The byte string entry -/

/-- The current selection `ImHexApi::HexEditor::getSelection()`: a region of the data. -/
structure Region where
  address : Nat
  size : Nat
deriving DecidableEq, Repr

/-- The constant `MaxStringLength`. -/
def MaxStringLength : Nat := 32

/-- The chars of the literal `...`. -/
def ellipsis : List UInt8 := [0x2E, 0x2E, 0x2E]

/-- The two strings the closure of the byte string entry captures: `value`, which it draws
(between quotes), and `copyValue`, which it returns. -/
structure StringResult where
  value : List UInt8
  copyValue : List UInt8
deriving DecidableEq, Repr

/-- Decode of `hex.builtin.inspector.string`. The texts of this entry are kept as the
sequence of their `char`s, since `size()` and `resize()` count chars. The selection, the
provider's `read(address, size)` (the content of `stringBuffer` after the call) and
`hex::encodeByteString` of `hex/helpers/utils.hpp` are defined outside this source file and
are parameters; the window, the byte order and the style are unused. -/
def stringDecode (currSelection : Option Region) (read : Nat → Nat → List UInt8)
    (encodeByteString : List UInt8 → List UInt8) (_buffer : List UInt8) (_endian : Endian)
    (_style : Style) : StringResult :=
  match currSelection with
  | some selection =>
    let stringBuffer := read selection.address (Nat.min selection.size 0x1000)
    let copyValue := encodeByteString stringBuffer
    let value :=
      if copyValue.length > MaxStringLength then copyValue.take MaxStringLength ++ ellipsis
      else copyValue
    ⟨value, copyValue⟩
  | none => ⟨[], []⟩

/-- The chars of a `std::string` that `c_str()` hands to a formatter: those before the
first NUL. -/
def c_str (text : List UInt8) : List UInt8 :=
  text.takeWhile fun b => b ≠ 0

/-- The char of the double quote. -/
def quote : UInt8 := 0x22

/-- The text the closure of the byte string entry draws: `ImGui::TextFormatted` with
`value.c_str()` between two double quotes. -/
def stringDrawn (r : StringResult) : List UInt8 :=
  [quote] ++ c_str r.value ++ [quote]

/-! ## Texts without digits -/

theorem toBytes_length (n size : Nat) : (toBytes n size).length = size := by
  simp [toBytes]

theorem toBytes_zero (size : Nat) : toBytes 0 size = List.replicate size 0 := by
  apply List.ext_get
  · simp [toBytes]
  · intro i h1 h2
    simp [toBytes]

theorem magnitude_eq_zero_of_not_digit (s : List Char)
    (h : ∀ c r, s = c :: r → ¬ (48 ≤ c.toNat ∧ c.toNat ≤ 57)) : magnitude s = 0 := by
  have key : accumulate 10 s 0 = 0 := by
    cases s with
    | nil => rfl
    | cons c r =>
      have hc := h c r rfl
      unfold accumulate digitValue
      split_ifs <;> simp_all <;> omega
  unfold magnitude
  split
  · rename_i x r
    exact absurd (by decide) (h _ _ rfl)
  · exact key

theorem parseInteger_eq_zero (s : List Char) (h : startsWithDigit s = false) :
    (parseInteger s).2 = 0 := by
  unfold parseInteger
  apply magnitude_eq_zero_of_not_digit
  intro c r hs
  unfold startsWithDigit at h
  rw [hs] at h
  simpa using h

theorem strtoull_eq_zero (s : List Char) (h : startsWithDigit s = false) :
    strtoull s = 0 := by
  have h0 := parseInteger_eq_zero s h
  unfold strtoull
  simp only [h0]
  split_ifs <;> simp_all

theorem strtoll_eq_zero (s : List Char) (h : startsWithDigit s = false) :
    strtoll s = 0 := by
  have h0 := parseInteger_eq_zero s h
  unfold strtoll
  simp only [h0]
  split_ifs <;> simp_all

theorem IntType.max_nonneg (T : IntType) : 0 ≤ T.max := by
  unfold IntType.max
  split_ifs
  · have : (1 : Int) ≤ 2 ^ (T.bits - 1) := one_le_pow₀ (by norm_num)
    omega
  · have : (1 : Int) ≤ 2 ^ T.bits := one_le_pow₀ (by norm_num)
    omega

theorem IntType.min_nonpos (T : IntType) : T.min ≤ 0 := by
  unfold IntType.min
  split_ifs
  · have : (0 : Int) ≤ 2 ^ (T.bits - 1) := by positivity
    omega
  · exact le_refl 0

/-! ## Bytes and numbers -/

theorem toBytes_succ (n size : Nat) :
    toBytes n (size + 1) = UInt8.ofNat (n % 256) :: toBytes (n / 256) size := by
  unfold toBytes
  rw [List.range_succ_eq_map, List.map_cons, List.map_map]
  congr 1
  · simp
  · apply List.map_congr_left
    intro i _
    simp only [Function.comp, pow_succ]
    rw [Nat.div_div_eq_div_mul, Nat.mul_comm]

theorem uint8_ofNat_toNat (n : Nat) : (UInt8.ofNat n).toNat = n % 256 := rfl

theorem uint8_ofNat_eq (b : UInt8) (n : Nat) (h : n % 256 = b.toNat) : UInt8.ofNat n = b := by
  apply UInt8.ext
  rw [uint8_ofNat_toNat, h]

theorem fromBytes_lt (l : List UInt8) : fromBytes l < 256 ^ l.length := by
  induction l with
  | nil => simp [fromBytes]
  | cons b bs ih =>
    have hb := b.toNat_lt
    simp only [fromBytes, List.length_cons, pow_succ]
    omega

theorem toBytes_fromBytes (l : List UInt8) : toBytes (fromBytes l) l.length = l := by
  induction l with
  | nil => rfl
  | cons b bs ih =>
    have hb := b.toNat_lt
    rw [List.length_cons, toBytes_succ, fromBytes]
    have h1 : (b.toNat + 256 * fromBytes bs) / 256 = fromBytes bs := by omega
    rw [h1, ih]
    congr 1
    apply uint8_ofNat_eq
    omega

theorem fromBytes_toBytes (n size : Nat) : fromBytes (toBytes n size) = n % 256 ^ size := by
  induction size generalizing n with
  | zero => simp [toBytes, fromBytes, Nat.mod_one]
  | succ k ih =>
    rw [toBytes_succ, fromBytes, ih, uint8_ofNat_toNat, pow_succ]
    have := Nat.mod_mul_right_div_self n 256 (256 ^ k)
    have h2 := Nat.div_add_mod (n % (256 * 256 ^ k)) 256
    rw [Nat.mod_mul_right_mod] at h2
    rw [Nat.mul_comm (256 ^ k) 256]
    omega

/-! ## Decimal text -/

theorem toDigitsCore_mem (b : Nat) (hb : 0 < b) (f n : Nat) (acc : List Char) :
    ∀ c ∈ Nat.toDigitsCore b f n acc, c ∈ acc ∨ ∃ k < b, c = Nat.digitChar k := by
  induction f generalizing n acc with
  | zero => intro c hc; left; simpa [Nat.toDigitsCore] using hc
  | succ f ih =>
    intro c hc
    simp only [Nat.toDigitsCore] at hc
    split_ifs at hc with h0
    · rcases List.mem_cons.mp hc with h | h
      · right; exact ⟨n % b, Nat.mod_lt _ hb, h⟩
      · left; exact h
    · rcases ih _ _ c hc with h | h
      · rcases List.mem_cons.mp h with h | h
        · right; exact ⟨n % b, Nat.mod_lt _ hb, h⟩
        · left; exact h
      · right; exact h

theorem toUpper_digitChar (k : Nat) (hk : k < 10) :
    (Nat.digitChar k).toUpper = Nat.digitChar k := by
  interval_cases k <;> decide

theorem digits_le_ten (b : Nat) (hb : 0 < b) (hb10 : b ≤ 10) (n : Nat) :
    digits b n = Nat.toDigits b n := by
  unfold digits
  refine (List.map_congr_left ?_).trans (List.map_id _)
  intro c hc
  rcases toDigitsCore_mem b hb _ _ _ c hc with h | ⟨k, hk, rfl⟩
  · simp at h
  · exact toUpper_digitChar k (by omega)

theorem digits_ten (n : Nat) : digits 10 n = Nat.toDigits 10 n :=
  digits_le_ten 10 (by norm_num) (by norm_num) n

theorem formatInt_ofNat (base width m : Nat) :
    formatInt base width (m : Int) =
      List.replicate (width - (digits base m).length) '0' ++ digits base m := by
  unfold formatInt
  have h : ¬ ((m : Int) < 0) := Int.not_lt.mpr (Int.ofNat_nonneg m)
  simp only [h, if_false, Int.natAbs_ofNat, List.nil_append, List.length_nil, Nat.sub_zero]

theorem decimal_text (v : Int) :
    String.mk ((if v < 0 then ['-'] else []) ++ formatInt 10 0 (v.natAbs : Int)) = toString v := by
  rw [formatInt_ofNat, digits_ten, Nat.zero_sub, List.replicate_zero, List.nil_append]
  cases v with
  | ofNat m =>
    have : ¬ (Int.ofNat m < 0) := Int.not_lt.mpr (Int.ofNat_nonneg m)
    simp only [this, if_false, List.nil_append]
    rfl
  | negSucc m =>
    have : (Int.negSucc m < 0) := Int.negSucc_lt_zero m
    simp only [this, if_true]
    rfl

/-! ## The number a window is decoded to -/

theorem changeEndianess_memcpyIn (Size : Nat) (buffer : List UInt8) (endian : Endian)
    (h : Size ≤ buffer.length) :
    changeEndianess (memcpyIn buffer Size) Size endian =
      fromBytes (if endian = Endian.little then buffer.take Size
        else (buffer.take Size).reverse) := by
  unfold changeEndianess memcpyIn Endian.native
  have hl : (buffer.take Size).length = Size := by simp [h]
  split_ifs with h1
  · rfl
  · have := toBytes_fromBytes (buffer.take Size)
    rw [hl] at this
    rw [this]

theorem windowValue_unsigned (Size : Nat) (buffer : List UInt8) (endian : Endian)
    (h : Size ≤ buffer.length) :
    windowValue false Size buffer endian =
      (changeEndianess (memcpyIn buffer Size) Size endian : Int) := by
  rw [changeEndianess_memcpyIn _ _ _ h]
  simp [windowValue]

theorem windowValue_signed (Size : Nat) (buffer : List UInt8) (endian : Endian)
    (h : Size ≤ buffer.length) :
    windowValue true Size buffer endian =
      toSigned (8 * Size) (changeEndianess (memcpyIn buffer Size) Size endian : Int) := by
  rw [changeEndianess_memcpyIn _ _ _ h]
  simp [windowValue]

theorem changeEndianess_lt (Size : Nat) (buffer : List UInt8) (endian : Endian)
    (h : Size ≤ buffer.length) :
    changeEndianess (memcpyIn buffer Size) Size endian < 256 ^ Size := by
  rw [changeEndianess_memcpyIn _ _ _ h]
  have hl : (buffer.take Size).length = Size := by simp [h]
  split_ifs
  · simpa [hl] using fromBytes_lt (buffer.take Size)
  · simpa [hl] using fromBytes_lt (buffer.take Size).reverse

theorem entry_cases (e : IntEntry) (he : e ∈ integerEntries) :
    (e.T = u8 ∧ e.Size = 1) ∨ (e.T = i8 ∧ e.Size = 1) ∨ (e.T = u16 ∧ e.Size = 2) ∨
    (e.T = i16 ∧ e.Size = 2) ∨ (e.T = u32 ∧ e.Size = 3) ∨ (e.T = i32 ∧ e.Size = 3) ∨
    (e.T = u32 ∧ e.Size = 4) ∨ (e.T = i32 ∧ e.Size = 4) ∨ (e.T = u64 ∧ e.Size = 6) ∨
    (e.T = i64 ∧ e.Size = 6) ∨ (e.T = u64 ∧ e.Size = 8) ∨ (e.T = i64 ∧ e.Size = 8) := by
  simp only [integerEntries, List.mem_cons, List.mem_singleton, List.not_mem_nil, or_false] at he
  rcases he with rfl | rfl | rfl | rfl | rfl | rfl | rfl | rfl | rfl | rfl | rfl | rfl <;>
    simp

theorem signed_cases (e : IntEntry) (he : e ∈ integerEntries) (hs : e.T.signed = true) :
    (e.T = i8 ∧ e.Size = 1) ∨ (e.T = i16 ∧ e.Size = 2) ∨ (e.T = i32 ∧ e.Size = 3) ∨
    (e.T = i32 ∧ e.Size = 4) ∨ (e.T = i64 ∧ e.Size = 6) ∨ (e.T = i64 ∧ e.Size = 8) := by
  rcases entry_cases e he with h | h | h | h | h | h | h | h | h | h | h | h <;>
    rcases h with ⟨hT, hS⟩ <;> rw [hT] at hs <;> simp_all [u8, u16, u32, u64]

theorem pow_facts :
    (2:Int) ^ 7 = 128 ∧ (2:Int) ^ 8 = 256 ∧ (2:Int) ^ 15 = 32768 ∧ (2:Int) ^ 16 = 65536 ∧
    (2:Int) ^ 23 = 8388608 ∧ (2:Int) ^ 24 = 16777216 ∧ (2:Int) ^ 31 = 2147483648 ∧
    (2:Int) ^ 32 = 4294967296 ∧ (2:Int) ^ 47 = 140737488355328 ∧
    (2:Int) ^ 48 = 281474976710656 ∧ (2:Int) ^ 63 = 9223372036854775808 ∧
    (2:Int) ^ 64 = 18446744073709551616 := by
  norm_num

theorem signed_number (T : IntType) (Size : Nat)
    (h : (T = i8 ∧ Size = 1) ∨ (T = i16 ∧ Size = 2) ∨ (T = i32 ∧ Size = 3) ∨
      (T = i32 ∧ Size = 4) ∨ (T = i64 ∧ Size = 6) ∨ (T = i64 ∧ Size = 8))
    (u : Nat) (hu : u < 256 ^ Size) :
    (if Size ≠ T.bytes then toSigned T.bits (signExtend (Size * 8) (toSigned T.bits u))
      else toSigned T.bits u) = toSigned (8 * Size) u := by
  obtain ⟨p7, p8, p15, p16, p23, p24, p31, p32, p47, p48, p63, p64⟩ := pow_facts
  rcases h with h | h | h | h | h | h <;> obtain ⟨rfl, rfl⟩ := h
  · have hb : i8.bits = 8 := rfl
    have hy : i8.bytes = 1 := rfl
    rw [show 256 ^ 1 = 256 by norm_num] at hu
    simp only [hb, hy, toSigned, signExtend, p7, p8, Nat.reduceMul, Nat.reduceSub]
    split_ifs <;> omega
  · have hb : i16.bits = 16 := rfl
    have hy : i16.bytes = 2 := rfl
    rw [show 256 ^ 2 = 65536 by norm_num] at hu
    simp only [hb, hy, toSigned, signExtend, p15, p16, Nat.reduceMul, Nat.reduceSub]
    split_ifs <;> omega
  · have hb : i32.bits = 32 := rfl
    have hy : i32.bytes = 4 := rfl
    rw [show 256 ^ 3 = 16777216 by norm_num] at hu
    simp only [hb, hy, toSigned, signExtend, p23, p24, p31, p32, Nat.reduceMul, Nat.reduceSub]
    split_ifs <;> omega
  · have hb : i32.bits = 32 := rfl
    have hy : i32.bytes = 4 := rfl
    rw [show 256 ^ 4 = 4294967296 by norm_num] at hu
    simp only [hb, hy, toSigned, signExtend, p31, p32, Nat.reduceMul, Nat.reduceSub]
    split_ifs <;> omega
  · have hb : i64.bits = 64 := rfl
    have hy : i64.bytes = 8 := rfl
    rw [show 256 ^ 6 = 281474976710656 by norm_num] at hu
    simp only [hb, hy, toSigned, signExtend, p47, p48, p63, p64, Nat.reduceMul, Nat.reduceSub]
    split_ifs <;> omega
  · have hb : i64.bits = 64 := rfl
    have hy : i64.bytes = 8 := rfl
    rw [show 256 ^ 8 = 18446744073709551616 by norm_num] at hu
    simp only [hb, hy, toSigned, signExtend, p63, p64, Nat.reduceMul, Nat.reduceSub]
    split_ifs <;> omega

theorem toSigned_bounds (k : Nat) (n : Int) :
    -(2 ^ k) ≤ toSigned (k + 1) n ∧ toSigned (k + 1) n < 2 ^ k := by
  unfold toSigned
  simp only [Nat.add_sub_cancel, pow_succ]
  have hp : (0 : Int) < 2 ^ k := by positivity
  have h1 := Int.emod_nonneg n (show (2 : Int) ^ k * 2 ≠ 0 by omega)
  have h2 := Int.emod_lt_of_pos n (show (0 : Int) < 2 ^ k * 2 by omega)
  split_ifs <;> constructor <;> omega

theorem stdAbs_eq (T : IntType) (v : Int)
    (h : (v.natAbs : Int) < 2 ^ (8 * Nat.max T.bytes 4 - 1)) : stdAbs T v = v.natAbs := by
  unfold stdAbs toSigned
  have hle : (2 : Int) ^ (8 * Nat.max T.bytes 4 - 1) ≤ 2 ^ (8 * Nat.max T.bytes 4) :=
    pow_le_pow_right₀ (by norm_num) (Nat.sub_le _ _)
  have h0 : (0 : Int) ≤ v.natAbs := Int.ofNat_nonneg _
  rw [Int.emod_eq_of_lt h0 (lt_of_lt_of_le h hle)]
  simp only [h, if_true]

theorem signedToString_eq (T : IntType) (Size : Nat)
    (h : (T = i8 ∧ Size = 1) ∨ (T = i16 ∧ Size = 2) ∨ (T = i32 ∧ Size = 3) ∨
      (T = i32 ∧ Size = 4) ∨ (T = i64 ∧ Size = 6) ∨ (T = i64 ∧ Size = 8))
    (buffer : List UInt8) (endian : Endian) (style : Style) (hlen : Size ≤ buffer.length) :
    signedToString T Size buffer endian style =
      String.mk ((if windowValue true Size buffer endian < 0 then ['-'] else []) ++ style.pre ++
        formatInt style.base (style.width Size)
          (stdAbs T (windowValue true Size buffer endian))) := by
  have hmin : Nat.min T.bytes Size = Size := by
    rcases h with h | h | h | h | h | h <;> obtain ⟨rfl, rfl⟩ := h <;> rfl
  have hnum := signed_number T Size h _ (changeEndianess_lt Size buffer endian hlen)
  rw [← windowValue_signed Size buffer endian hlen] at hnum
  unfold signedToString
  rw [if_neg (Nat.not_lt.mpr hlen)]
  simp only [hmin, hnum, decide_eq_true_eq]

theorem unsignedToString_eq (T : IntType) (Size : Nat) (hS : Size ≤ T.bytes)
    (buffer : List UInt8) (endian : Endian) (style : Style) (hlen : Size ≤ buffer.length) :
    unsignedToString T Size buffer endian style =
      String.mk (style.pre ++ formatInt style.base (style.width Size)
        (windowValue false Size buffer endian)) := by
  have hmin : Nat.min T.bytes Size = Size := Nat.min_eq_right hS
  unfold unsignedToString
  rw [if_neg (Nat.not_lt.mpr hlen)]
  simp only [hmin, windowValue_unsigned Size buffer endian hlen]

theorem signed_abs_regular (T : IntType) (Size : Nat)
    (h : (T = i8 ∧ Size = 1) ∨ (T = i16 ∧ Size = 2) ∨ (T = i32 ∧ Size = 3) ∨
      (T = i32 ∧ Size = 4) ∨ (T = i64 ∧ Size = 6) ∨ (T = i64 ∧ Size = 8))
    (x : Int) (hmin : ¬ (4 ≤ T.bytes ∧ toSigned (8 * Size) x = T.min)) :
    stdAbs T (toSigned (8 * Size) x) = (toSigned (8 * Size) x).natAbs ∧
      (toSigned (8 * Size) x).natAbs < 256 ^ Size := by
  obtain ⟨p7, p8, p15, p16, p23, p24, p31, p32, p47, p48, p63, p64⟩ := pow_facts
  rcases h with h | h | h | h | h | h <;> obtain ⟨rfl, rfl⟩ := h
  · have hb := toSigned_bounds 7 x
    rw [show 7 + 1 = 8 * 1 from rfl, p7] at hb
    refine ⟨stdAbs_eq _ _ ?_, ?_⟩
    · rw [show 8 * Nat.max i8.bytes 4 - 1 = 31 from rfl, p31]; omega
    · rw [show 256 ^ 1 = 256 by norm_num]; omega
  · have hb := toSigned_bounds 15 x
    rw [show 15 + 1 = 8 * 2 from rfl, p15] at hb
    refine ⟨stdAbs_eq _ _ ?_, ?_⟩
    · rw [show 8 * Nat.max i16.bytes 4 - 1 = 31 from rfl, p31]; omega
    · rw [show 256 ^ 2 = 65536 by norm_num]; omega
  · have hb := toSigned_bounds 23 x
    rw [show 23 + 1 = 8 * 3 from rfl, p23] at hb
    refine ⟨stdAbs_eq _ _ ?_, ?_⟩
    · rw [show 8 * Nat.max i32.bytes 4 - 1 = 31 from rfl, p31]; omega
    · rw [show 256 ^ 3 = 16777216 by norm_num]; omega
  · have hb := toSigned_bounds 31 x
    rw [show 31 + 1 = 8 * 4 from rfl, p31] at hb
    have hm : i32.min = -2147483648 := by
      simp only [IntType.min, IntType.bits, i32, if_true, Nat.reduceMul, Nat.reduceSub, p31]
    rw [hm] at hmin
    have hne : toSigned (8 * 4) x ≠ -2147483648 := fun hc => hmin ⟨by decide, hc⟩
    refine ⟨stdAbs_eq _ _ ?_, ?_⟩
    · rw [show 8 * Nat.max i32.bytes 4 - 1 = 31 from rfl, p31]; omega
    · rw [show 256 ^ 4 = 4294967296 by norm_num]; omega
  · have hb := toSigned_bounds 47 x
    rw [show 47 + 1 = 8 * 6 from rfl, p47] at hb
    refine ⟨stdAbs_eq _ _ ?_, ?_⟩
    · rw [show 8 * Nat.max i64.bytes 4 - 1 = 63 from rfl, p63]; omega
    · rw [show 256 ^ 6 = 281474976710656 by norm_num]; omega
  · have hb := toSigned_bounds 63 x
    rw [show 63 + 1 = 8 * 8 from rfl, p63] at hb
    have hm : i64.min = -9223372036854775808 := by
      simp only [IntType.min, IntType.bits, i64, if_true, Nat.reduceMul, Nat.reduceSub, p63]
    rw [hm] at hmin
    have hne : toSigned (8 * 8) x ≠ -9223372036854775808 := fun hc => hmin ⟨by decide, hc⟩
    refine ⟨stdAbs_eq _ _ ?_, ?_⟩
    · rw [show 8 * Nat.max i64.bytes 4 - 1 = 63 from rfl, p63]; omega
    · rw [show 256 ^ 8 = 18446744073709551616 by norm_num]; omega

theorem entry_size_le (e : IntEntry) (he : e ∈ integerEntries) :
    0 < e.Size ∧ e.Size ≤ e.T.bytes ∧ e.T.bytes ≤ 8 := by
  rcases entry_cases e he with h | h | h | h | h | h | h | h | h | h | h | h <;>
    obtain ⟨hT, hS⟩ := h <;> rw [hT, hS] <;> decide

/-- The text of a window that does not hold the most negative value of a signed type of at
least the width of `int`: sign, prefix of the style, zero fill, digits of the magnitude. -/
theorem decode_regular (e : IntEntry) (he : e ∈ integerEntries) (buffer : List UInt8)
    (endian : Endian) (style : Style) (hlen : e.Size ≤ buffer.length)
    (hmin : ¬ (e.T.signed = true ∧ 4 ≤ e.T.bytes ∧
      windowValue e.T.signed e.Size buffer endian = e.T.min)) :
    e.decode buffer endian style =
        String.mk ((if windowValue e.T.signed e.Size buffer endian < 0 then ['-'] else []) ++
          style.pre ++
          (List.replicate (style.width e.Size -
              (digits style.base (windowValue e.T.signed e.Size buffer endian).natAbs).length) '0'
            ++ digits style.base (windowValue e.T.signed e.Size buffer endian).natAbs)) ∧
      (windowValue e.T.signed e.Size buffer endian).natAbs < 256 ^ e.Size := by
  unfold IntEntry.decode integerToString
  by_cases hs : e.T.signed = true
  · have hcase := signed_cases e he hs
    have hv := windowValue_signed e.Size buffer endian hlen
    have hreg := signed_abs_regular e.T e.Size hcase
      (changeEndianess (memcpyIn buffer e.Size) e.Size endian : Int)
      (by rw [← hv]; exact fun hc => hmin ⟨hs, hc.1, by rw [hs]; exact hc.2⟩)
    rw [← hv] at hreg
    rw [if_pos hs, hs, signedToString_eq e.T e.Size hcase buffer endian style hlen, hreg.1,
      formatInt_ofNat]
    exact ⟨rfl, hreg.2⟩
  · have hS := (entry_size_le e he).2.1
    have hs : e.T.signed = false := by simpa using hs
    have hv := windowValue_unsigned e.Size buffer endian hlen
    have hlt := changeEndianess_lt e.Size buffer endian hlen
    rw [if_neg (by simp [hs]), hs, unsignedToString_eq e.T e.Size hS buffer endian style hlen, hv,
      formatInt_ofNat]
    have hn : ¬ ((changeEndianess (memcpyIn buffer e.Size) e.Size endian : Int) < 0) :=
      Int.not_lt.mpr (Int.ofNat_nonneg _)
    simp only [hn, if_false, Int.natAbs_ofNat, List.nil_append]
    exact ⟨trivial, hlt⟩

theorem toBytes_getElem? (n size i : Nat) (h : i < size) :
    (toBytes n size)[i]? = some (UInt8.ofNat (n / 256 ^ i % 256)) := by
  simp [toBytes, List.getElem?_map, List.getElem?_range h]

theorem unsigned_byte (n i : Nat) :
    (((n : Int) / 2 ^ (8 * i)) % 256).toNat = n / 256 ^ i % 256 := by
  have h : ((n : Int) / 2 ^ (8 * i)) % 256 = ((n / 256 ^ i % 256 : Nat) : Int) := by
    rw [pow_mul]
    push_cast
    norm_num
  rw [h, Int.toNat_ofNat]

theorem signed_byte (r : Int) (i : Nat) (hi : i < 8) :
    ((r / 2 ^ (8 * i)) % 256).toNat = (r % 2 ^ 64).toNat / 256 ^ i % 256 := by
  interval_cases i <;> norm_num <;> omega

/-! ## Parsing the decimal text of a number -/

theorem digitValue_digitChar (k : Nat) (hk : k < 10) : digitValue (Nat.digitChar k) = some k := by
  interval_cases k <;> rfl

theorem accumulate_toDigitsCore (b : Nat) (hb2 : 2 ≤ b) (hb10 : b ≤ 10) (f : Nat) :
    ∀ (n : Nat) (tail : List Char), n < f →
      accumulate b (Nat.toDigitsCore b f n tail) 0 = accumulate b tail n := by
  induction f with
  | zero => intro n tail h; omega
  | succ f ih =>
    intro n tail h
    have hmod : n % b < b := Nat.mod_lt _ (by omega)
    have hstep : accumulate b (Nat.digitChar (n % b) :: tail) (n / b) = accumulate b tail n := by
      rw [accumulate, digitValue_digitChar _ (by omega)]
      simp only [hmod, if_true]
      rw [Nat.mul_comm, Nat.div_add_mod]
    simp only [Nat.toDigitsCore]
    split_ifs with h0
    · rw [← hstep, h0]
    · have hlt : n / b < f := by
        have : n / b < n := Nat.div_lt_self (by
          rcases Nat.eq_zero_or_pos n with hn | hn
          · rw [hn] at h0; simp at h0
          · exact hn) (by omega)
        omega
      rw [ih _ _ hlt, hstep]

theorem accumulate_toDigits (b : Nat) (hb2 : 2 ≤ b) (hb10 : b ≤ 10) (n : Nat) :
    accumulate b (Nat.toDigits b n) 0 = n := by
  unfold Nat.toDigits
  rw [accumulate_toDigitsCore b hb2 hb10 (n + 1) n [] (by omega)]
  rfl

theorem toDigitsCore_head (b : Nat) (hb2 : 2 ≤ b) (f : Nat) :
    ∀ (n : Nat) (tail : List Char), n < f →
      ∃ d r, d < b ∧ (0 < n → 0 < d) ∧ Nat.toDigitsCore b f n tail = Nat.digitChar d :: r := by
  induction f with
  | zero => intro n tail h; omega
  | succ f ih =>
    intro n tail h
    simp only [Nat.toDigitsCore]
    split_ifs with h0
    · refine ⟨n % b, tail, Nat.mod_lt _ (by omega), ?_, rfl⟩
      intro hn
      have : n < b := by
        by_contra hc
        have := Nat.div_pos (Nat.le_of_not_lt hc) (by omega : 0 < b)
        omega
      rw [Nat.mod_eq_of_lt this]
      exact hn
    · have hpos : 0 < n / b := Nat.pos_of_ne_zero h0
      have hn : 0 < n := by
        rcases Nat.eq_zero_or_pos n with hn | hn
        · rw [hn] at h0; simp at h0
        · exact hn
      have hlt : n / b < f := by
        have : n / b < n := Nat.div_lt_self hn (by omega)
        omega
      obtain ⟨d, r, hd, hd0, hr⟩ := ih (n / b) (Nat.digitChar (n % b) :: tail) hlt
      exact ⟨d, r, hd, fun _ => hd0 hpos, hr⟩

theorem toDigits_head (n : Nat) :
    ∃ d r, d < 10 ∧ (0 < n → 0 < d) ∧ Nat.toDigits 10 n = Nat.digitChar d :: r :=
  toDigitsCore_head 10 (by norm_num) (n + 1) n [] (by omega)

theorem digitChar_facts (d : Nat) (hd : d < 10) :
    isspace (Nat.digitChar d) = false ∧ Nat.digitChar d ≠ '-' ∧ Nat.digitChar d ≠ '+' ∧
      (0 < d → Nat.digitChar d ≠ '0') := by
  interval_cases d <;> decide

theorem magnitude_toDigits (n : Nat) : magnitude (Nat.toDigits 10 n) = n := by
  have hacc := accumulate_toDigits 10 (by norm_num) (by norm_num) n
  rcases Nat.eq_zero_or_pos n with hn | hn
  · rw [hn]; rfl
  · obtain ⟨d, r, hd, hd0, hr⟩ := toDigits_head n
    have hne := (digitChar_facts d hd).2.2.2 (hd0 hn)
    rw [hr] at hacc ⊢
    unfold magnitude
    split
    · rename_i heq
      exact absurd (List.cons.inj heq).1 hne
    · exact hacc

theorem parseInteger_toDigits (n : Nat) : parseInteger (Nat.toDigits 10 n) = (false, n) := by
  obtain ⟨d, r, hd, _, hr⟩ := toDigits_head n
  obtain ⟨hsp, hm, hp, _⟩ := digitChar_facts d hd
  have hmag := magnitude_toDigits n
  rw [hr] at hmag ⊢
  unfold parseInteger
  rw [List.dropWhile_cons_of_neg (by simp [hsp])]
  have hts : takeSign (Nat.digitChar d :: r) = (false, Nat.digitChar d :: r) := by
    unfold takeSign
    split
    · rename_i heq
      exact absurd (List.cons.inj heq).1 hm
    · rename_i heq
      exact absurd (List.cons.inj heq).1 hp
    · rfl
  rw [hts]
  show (false, magnitude (Nat.digitChar d :: r)) = (false, n)
  rw [hmag]

theorem parseInteger_neg_toDigits (n : Nat) :
    parseInteger ('-' :: Nat.toDigits 10 n) = (true, n) := by
  unfold parseInteger
  rw [List.dropWhile_cons_of_neg (by decide)]
  show (true, magnitude (Nat.toDigits 10 n)) = (true, n)
  rw [magnitude_toDigits]

theorem toString_data (v : Int) :
    (toString v).data =
      (if v < 0 then ['-'] else []) ++ Nat.toDigits 10 v.natAbs := by
  cases v with
  | ofNat m =>
    have : ¬ (Int.ofNat m < 0) := Int.not_lt.mpr (Int.ofNat_nonneg m)
    simp only [this, if_false, List.nil_append]
    rfl
  | negSucc m =>
    have : (Int.negSucc m < 0) := Int.negSucc_lt_zero m
    simp only [this, if_true]
    rfl

theorem parseInteger_toString (v : Int) :
    parseInteger (toString v).data = (decide (v < 0), v.natAbs) := by
  rw [toString_data]
  by_cases h : v < 0
  · simp only [h, if_true, decide_True, List.singleton_append]
    exact parseInteger_neg_toDigits _
  · simp only [h, if_false, decide_False, List.nil_append]
    exact parseInteger_toDigits _

theorem inRange_facts (e : IntEntry) (he : e ∈ integerEntries) (v : Int) (hv : e.inRange v) :
    e.T.min ≤ v ∧ v ≤ e.T.max ∧ -(2 ^ 63) ≤ v ∧ v < 2 ^ 64 ∧ (e.T.signed = true → v < 2 ^ 63) ∧
      (e.T.signed = false → 0 ≤ v) := by
  obtain ⟨p7, p8, p15, p16, p23, p24, p31, p32, p47, p48, p63, p64⟩ := pow_facts
  rcases entry_cases e he with h | h | h | h | h | h | h | h | h | h | h | h <;>
    obtain ⟨hT, hS⟩ := h <;>
    simp only [IntEntry.inRange, hT, hS, u8, i8, u16, i16, u32, i32, u64, i64, IntType.max,
      IntType.min, IntType.bits, Nat.reduceMul, Nat.reduceSub, if_true, Bool.false_eq_true,
      if_false, Bool.true_eq_false, false_implies, true_implies, implies_true, true_and,
      and_true, p7, p8, p15, p16, p23, p24, p31, p32, p47, p48, p63, p64] at hv ⊢ <;>
    omega

theorem strtoll_toString (v : Int) (h1 : -(2 ^ 63) ≤ v) (h2 : v < 2 ^ 63) :
    strtoll (toString v).data = v := by
  obtain ⟨p7, p8, p15, p16, p23, p24, p31, p32, p47, p48, p63, p64⟩ := pow_facts
  rw [p63] at h1 h2
  unfold strtoll
  rw [parseInteger_toString]
  simp only [decide_eq_true_eq, Nat.reducePow, Nat.reduceSub, gt_iff_lt, p63]
  split_ifs <;> omega

theorem strtoull_toString (v : Int) (h0 : 0 ≤ v) (h : v < 2 ^ 64) :
    strtoull (toString v).data = (v % 2 ^ 64).toNat := by
  obtain ⟨p7, p8, p15, p16, p23, p24, p31, p32, p47, p48, p63, p64⟩ := pow_facts
  rw [p64] at h ⊢
  unfold strtoull
  rw [parseInteger_toString]
  simp only [decide_eq_true_eq, Nat.reducePow, Nat.reduceSub, gt_iff_lt]
  split_ifs <;> omega

theorem encode_toString (e : IntEntry) (he : e ∈ integerEntries) (endian : Endian) (v : Int)
    (hv : e.inRange v) :
    e.encode (toString v) endian =
      if endian ≠ Endian.native then (toBytes (v % 2 ^ 64).toNat e.Size).reverse
      else toBytes (v % 2 ^ 64).toNat e.Size := by
  obtain ⟨hmin, hmax, h63, h64, hsg, hus⟩ := inRange_facts e he v hv
  unfold IntEntry.encode stringToInteger
  by_cases hs : e.T.signed = true
  · rw [if_pos hs]
    unfold stringToSigned
    rw [strtoll_toString v h63 (hsg hs)]
    rw [if_neg (by omega)]
  · have hs : e.T.signed = false := by simpa using hs
    rw [if_neg (by simp [hs])]
    unfold stringToUnsigned
    rw [strtoull_toString v (hus hs) h64]
    have hc : (((v % 2 ^ 64).toNat : Nat) : Int) = v := by
      obtain ⟨p7, p8, p15, p16, p23, p24, p31, p32, p47, p48, p63, p64⟩ := pow_facts
      have h0 := hus hs
      rw [p64] at h64 ⊢
      omega
    show (if (((v % 2 ^ 64).toNat : Nat) : Int) > e.T.max then [] else _) = _
    rw [hc, if_neg (by omega)]

theorem low_bytes_value (e : IntEntry) (he : e ∈ integerEntries) (v : Int) (hv : e.inRange v) :
    (if e.T.signed then toSigned (8 * e.Size) (((v % 2 ^ 64).toNat % 256 ^ e.Size : Nat) : Int)
      else (((v % 2 ^ 64).toNat % 256 ^ e.Size : Nat) : Int)) = v := by
  obtain ⟨p7, p8, p15, p16, p23, p24, p31, p32, p47, p48, p63, p64⟩ := pow_facts
  rcases entry_cases e he with h | h | h | h | h | h | h | h | h | h | h | h <;>
    obtain ⟨hT, hS⟩ := h <;>
    simp only [IntEntry.inRange, hT, hS, u8, i8, u16, i16, u32, i32, u64, i64, toSigned,
      Nat.reduceMul, Nat.reduceSub, Nat.reducePow, if_true, Bool.false_eq_true,
      if_false, p7, p8, p15, p16, p23, p24, p31, p32, p47, p48, p63, p64] at hv ⊢ <;>
    (try split_ifs) <;> omega

theorem windowValue_encode (e : IntEntry) (he : e ∈ integerEntries) (endian : Endian) (v : Int)
    (hv : e.inRange v) :
    windowValue e.T.signed e.Size (e.encode (toString v) endian) endian = v := by
  rw [encode_toString e he endian v hv]
  have hlen := toBytes_length (v % 2 ^ 64).toNat e.Size
  have hu : fromBytes (if endian = Endian.little then
      List.take e.Size (if endian ≠ Endian.native then
        (toBytes (v % 2 ^ 64).toNat e.Size).reverse else toBytes (v % 2 ^ 64).toNat e.Size)
      else (List.take e.Size (if endian ≠ Endian.native then
        (toBytes (v % 2 ^ 64).toNat e.Size).reverse
          else toBytes (v % 2 ^ 64).toNat e.Size)).reverse) =
      (v % 2 ^ 64).toNat % 256 ^ e.Size := by
    rw [← fromBytes_toBytes]
    cases endian with
    | little =>
      simp only [Endian.native, ne_eq, not_true_eq_false, if_false, if_true]
      rw [List.take_of_length_le (le_of_eq hlen)]
    | big =>
      simp only [Endian.native, ne_eq, reduceCtorEq, not_false_eq_true, if_true, if_false]
      rw [List.take_of_length_le (by rw [List.length_reverse, hlen]), List.reverse_reverse]
  unfold windowValue
  simp only [hu]
  exact low_bytes_value e he v hv

theorem encode_toString_length (e : IntEntry) (he : e ∈ integerEntries) (endian : Endian)
    (v : Int) (hv : e.inRange v) : (e.encode (toString v) endian).length = e.Size := by
  rw [encode_toString e he endian v hv]
  split_ifs
  · rw [List.length_reverse, toBytes_length]
  · rw [toBytes_length]

/-- The decimal round trip away from the overflow of `std::abs`: for every fixed-width
integer entry, both byte orders and every value of the entry's width and signedness other than the most
negative value of a 4- or 8-byte signed type, decoding in Decimal style the bytes encoded
from the decimal text of the value gives that text back. -/
theorem decimal_roundtrip_regular (e : IntEntry) (he : e ∈ integerEntries) (endian : Endian)
    (v : Int) (hv : e.inRange v)
    (hmin : ¬ (e.T.signed = true ∧ 4 ≤ e.T.bytes ∧ v = e.T.min)) :
    e.decode (e.encode (toString v) endian) endian Style.Decimal = toString v := by
  have hw := windowValue_encode e he endian v hv
  have hlen := encode_toString_length e he endian v hv
  have hdec := (decode_regular e he (e.encode (toString v) endian) endian Style.Decimal
    (le_of_eq hlen.symm) (by rw [hw]; exact hmin)).1
  rw [hw] at hdec
  rw [hdec, ← decimal_text v, formatInt_ofNat]
  simp only [Style.pre, Style.base, Style.width, List.append_nil]

theorem decimal_roundtrip_regular_witness :
    (⟨"hex.builtin.inspector.i48", i64, 6⟩ : IntEntry).decode
      ((⟨"hex.builtin.inspector.i48", i64, 6⟩ : IntEntry).encode (toString (-140737488355328 : Int))
        Endian.big) Endian.big Style.Decimal = toString (-140737488355328 : Int) :=
  decimal_roundtrip_regular ⟨"hex.builtin.inspector.i48", i64, 6⟩ (by decide) Endian.big
    (-140737488355328) (by decide) (by decide)

theorem digits_sixteen_length (m Size : Nat) (hS : 0 < Size) (h : m < 256 ^ Size) :
    (digits 16 m).length ≤ 2 * Size := by
  have h1 : 256 ^ Size = 16 ^ (2 * Size) := by
    rw [pow_mul, show 16 ^ 2 = 256 by norm_num]
  unfold digits
  rw [List.length_map]
  exact Nat.toDigitsCore_length 16 (by norm_num) (m + 1) m (2 * Size) (by rw [← h1]; exact h)
    (by omega)

/-- Sign-then-magnitude rendering away from the overflow of `std::abs`: for every
fixed-width integer entry and every window of at least `Size` bytes that does not hold the most negative value of a 4- or
8-byte signed type, Hexadecimal style renders a `-` when the value is negative, then `0x`,
then the upper-case hexadecimal digits of the magnitude zero-filled to exactly `2 * Size`
digits. -/
theorem hex_regular (e : IntEntry) (he : e ∈ integerEntries) (buffer : List UInt8)
    (endian : Endian) (hlen : e.Size ≤ buffer.length)
    (hmin : ¬ (e.T.signed = true ∧ 4 ≤ e.T.bytes ∧
      windowValue e.T.signed e.Size buffer endian = e.T.min)) :
    e.decode buffer endian Style.Hexadecimal =
        String.mk ((if windowValue e.T.signed e.Size buffer endian < 0 then ['-'] else []) ++
          ['0', 'x'] ++
          (List.replicate (2 * e.Size -
              (digits 16 (windowValue e.T.signed e.Size buffer endian).natAbs).length) '0'
            ++ digits 16 (windowValue e.T.signed e.Size buffer endian).natAbs)) ∧
      (List.replicate (2 * e.Size -
              (digits 16 (windowValue e.T.signed e.Size buffer endian).natAbs).length) '0'
            ++ digits 16 (windowValue e.T.signed e.Size buffer endian).natAbs).length
        = 2 * e.Size := by
  obtain ⟨hdec, hlt⟩ := decode_regular e he buffer endian Style.Hexadecimal hlen hmin
  have hlen16 := digits_sixteen_length _ e.Size (entry_size_le e he).1 hlt
  constructor
  · rw [hdec]
    simp only [Style.pre, Style.base, Style.width, Nat.mul_comm e.Size 2]
  · rw [List.length_append, List.length_replicate]
    omega

/-- The range test of the encoders is against the holding type `T`: a parsed value outside
`[min, max]` of `T` gives the empty result. -/
theorem encode_rejects_outside_holding_type (T : IntType) (Size : Nat) (text : String)
    (endian : Endian) (h : parsedValue T text > T.max ∨ parsedValue T text < T.min) :
    stringToInteger T Size text endian = [] := by
  unfold parsedValue at h
  unfold stringToInteger
  by_cases hs : T.signed = true
  · simp only [hs, if_true] at h ⊢
    unfold stringToSigned
    simp only [h, if_true]
  · have hs : T.signed = false := by simpa using hs
    simp only [hs, Bool.false_eq_true, if_false] at h ⊢
    unfold stringToUnsigned
    have hmin : T.min = 0 := by simp [IntType.min, hs]
    have hpos : (0 : Int) ≤ strtoull text.data := Int.ofNat_nonneg _
    have hgt : (strtoull text.data : Int) > T.max := by
      rcases h with h | h
      · exact h
      · omega
    simp only [hgt, if_true]

/-! ## The claims on failure -/

/-- C1, at the failing input: the text `-2147483648`, the least value of the 4-byte signed
entry, encodes to the bytes `00 00 00 80`, and these decode in Decimal style to
`--2147483648`, with two minus signs, instead of the text encoded. -/
theorem i32_min_roundtrip_breaks :
    stringToInteger i32 4 "-2147483648" Endian.little = [0x00, 0x00, 0x00, 0x80] ∧
    integerToString i32 4 (stringToInteger i32 4 "-2147483648" Endian.little)
      Endian.little Style.Decimal = "--2147483648" := by
  decide

/-- C2, at the failing input: the text `16777216` parses to 2^24, which is above the
largest 3-byte unsigned value, and the 3-byte unsigned entry (`stringToInteger<u32, 3>`)
still encodes it, as the three zero bytes, in both byte orders. The other entries narrower
than their holding type do the same: the 3-byte signed entry encodes 2^23, the 6-byte
entries encode 2^48 and 2^47. -/
theorem sub_native_encode_accepts_out_of_range :
    strtoull "16777216".data = 2 ^ 24 ∧
    stringToInteger u32 3 "16777216" Endian.little = [0x00, 0x00, 0x00] ∧
    stringToInteger u32 3 "16777216" Endian.big = [0x00, 0x00, 0x00] ∧
    stringToInteger i32 3 "8388608" Endian.little = [0x00, 0x00, 0x80] ∧
    stringToInteger u64 6 "281474976710656" Endian.little =
      [0x00, 0x00, 0x00, 0x00, 0x00, 0x00] ∧
    stringToInteger i64 6 "140737488355328" Endian.little =
      [0x00, 0x00, 0x00, 0x00, 0x00, 0x80] := by
  decide

/-- C3 as stated fails: the texts `abc` and the empty text are encoded by the
8-bit unsigned entry as the byte 0, not rejected. -/
theorem encode_unparseable_not_rejected :
    stringToInteger u8 1 "abc" Endian.little = [0x00] ∧
    stringToInteger u8 1 "" Endian.little = [0x00] ∧
    stringToInteger u8 1 "abc" Endian.little ≠ [] := by
  decide

/-- C3 (amended): for every fixed-width integer entry, either byte order, and every text
that does not start (after white space and an optional sign) with a digit, encode
returns the encoding of zero: `Size` zero bytes. -/
theorem encode_unparseable_gives_zero (T : IntType) (Size : Nat) (text : String)
    (endian : Endian) (h : startsWithDigit text.data = false) :
    stringToInteger T Size text endian = List.replicate Size 0 := by
  have hmax := T.max_nonneg
  have hmin := T.min_nonpos
  unfold stringToInteger stringToSigned stringToUnsigned
  simp only [strtoull_eq_zero _ h, strtoll_eq_zero _ h]
  have hz : toBytes (Int.toNat (0 % 2 ^ 64)) Size = List.replicate Size 0 := by
    simpa using toBytes_zero Size
  split_ifs <;> simp_all [toBytes_zero] <;> omega

theorem encode_unparseable_gives_zero_witness :
    startsWithDigit "- abc".data = false ∧
    stringToInteger i32 3 "- abc" Endian.big = List.replicate 3 0 :=
  ⟨by decide, encode_unparseable_gives_zero i32 3 "- abc" Endian.big (by decide)⟩

/-- C4: for every integer type, width `Size`, byte order and display style, a window of
fewer than `Size` bytes makes `integerToString` return the empty string, whatever the
bytes are. -/
theorem integerToString_short_window (T : IntType) (Size : Nat) (buffer : List UInt8)
    (endian : Endian) (style : Style) (h : buffer.length < Size) :
    integerToString T Size buffer endian style = "" := by
  unfold integerToString signedToString unsignedToString
  simp [h]

theorem integerToString_short_window_witness :
    ([0xFF, 0xFF] : List UInt8).length < 3 ∧
    integerToString i32 3 [0xFF, 0xFF] Endian.big Style.Hexadecimal = "" :=
  ⟨by decide, integerToString_short_window i32 3 [0xFF, 0xFF] Endian.big Style.Hexadecimal
    (by decide)⟩

theorem fromBytes_replicate_zero (k : Nat) : fromBytes (List.replicate k 0) = 0 := by
  induction k with
  | zero => rfl
  | succ k ih => simp [List.replicate_succ, fromBytes, ih]

theorem fromBytes_append_zeros (l : List UInt8) (k : Nat) :
    fromBytes (l ++ List.replicate k 0) = fromBytes l := by
  induction l with
  | nil => simpa [fromBytes] using fromBytes_replicate_zero k
  | cons b bs ih => simp [fromBytes, ih]

/-- C5 as stated fails: the wide character entry needs 4 bytes, and it decodes the 2-byte
window `00 01` (little-endian) to the character U+0100 instead of failing, whatever the
"make printable" transform is. -/
theorem wide_short_window_decodes :
    ([0x00, 0x01] : List UInt8).length < wcharSize ∧
    (∀ makePrintable, wideDecode makePrintable [0x00, 0x01] Endian.little Style.Decimal = "Ā") ∧
    "Ā" ≠ "" :=
  ⟨by decide, fun _ => by rfl, by decide⟩

/-- C5 (amended): every fixed-width integer entry decodes a window shorter than its size
to the empty string, whatever the bytes, byte order and style are; the wide character
entry does not fail on a window shorter than `wchar_t`: it decodes it like the same window
zero-filled to the size of `wchar_t`. -/
theorem short_window_by_entry (e : IntEntry) (buffer : List UInt8) (endian : Endian)
    (style : Style) (h : buffer.length < e.Size) (makePrintable : Nat → String)
    (window : List UInt8) (hw : window.length < wcharSize) :
    e.decode buffer endian style = "" ∧
      wideDecode makePrintable window endian style =
        wideDecode makePrintable (window ++ List.replicate (wcharSize - window.length) 0)
          endian style := by
  constructor
  · unfold IntEntry.decode integerToString signedToString unsignedToString
    simp [h]
  · have h1 : Nat.min wcharSize window.length = window.length := Nat.min_eq_right (le_of_lt hw)
    have h2 : (window ++ List.replicate (wcharSize - window.length) 0).length = wcharSize := by
      rw [List.length_append, List.length_replicate]
      omega
    have e1 : List.take (Nat.min wcharSize window.length) window = window :=
      List.take_of_length_le (by rw [h1])
    have e2 : List.take (Nat.min wcharSize
        (window ++ List.replicate (wcharSize - window.length) 0).length)
        (window ++ List.replicate (wcharSize - window.length) 0) =
        window ++ List.replicate (wcharSize - window.length) 0 :=
      List.take_of_length_le (by rw [h2]; exact le_of_eq (Nat.min_self _).symm)
    unfold wideDecode memcpyIn
    rw [e1, e2, fromBytes_append_zeros]

theorem short_window_by_entry_witness :
    ([0xFF, 0xFF] : List UInt8).length < (⟨"hex.builtin.inspector.i24", i32, 3⟩ : IntEntry).Size ∧
    ([0x41] : List UInt8).length < wcharSize ∧
    (⟨"hex.builtin.inspector.i24", i32, 3⟩ : IntEntry).decode [0xFF, 0xFF] Endian.big
      Style.Hexadecimal = "" ∧
    wideDecode Nat.repr [0x41] Endian.big Style.Hexadecimal =
      wideDecode Nat.repr ([0x41] ++ List.replicate (wcharSize - [0x41].length) 0)
        Endian.big Style.Hexadecimal :=
  ⟨by decide, by decide,
    short_window_by_entry ⟨"hex.builtin.inspector.i24", i32, 3⟩ [0xFF, 0xFF] Endian.big
      Style.Hexadecimal (by decide) Nat.repr [0x41] (by decide)⟩

/-! ## The claims on rendering and layout -/

/-- C6: for the 3-byte signed entry (`integerToString<i32, 3>`) and the 6-byte signed entry
(`integerToString<i64, 6>`), every little-endian window of at least that many bytes
renders in Decimal style as the decimal text of the two's-complement value of its first
3 (6) bytes; the bytes `FF FF FF` render `-1` and the bytes `00 00 80` render `-8388608`. -/
theorem sub_native_signed_decimal (T : IntType) (Size : Nat)
    (h : (T = i32 ∧ Size = 3) ∨ (T = i64 ∧ Size = 6)) (buffer : List UInt8)
    (hlen : Size ≤ buffer.length) :
    integerToString T Size buffer Endian.little Style.Decimal =
        toString (windowValue true Size buffer Endian.little) ∧
      integerToString i32 3 [0xFF, 0xFF, 0xFF] Endian.little Style.Decimal = "-1" ∧
      integerToString i32 3 [0x00, 0x00, 0x80] Endian.little Style.Decimal = "-8388608" := by
  refine ⟨?_, by decide, by decide⟩
  obtain ⟨p7, p8, p15, p16, p23, p24, p31, p32, p47, p48, p63, p64⟩ := pow_facts
  have hsig : T.signed = true := by
    rcases h with h | h <;> obtain ⟨rfl, rfl⟩ := h <;> rfl
  have hcase : (T = i8 ∧ Size = 1) ∨ (T = i16 ∧ Size = 2) ∨ (T = i32 ∧ Size = 3) ∨
      (T = i32 ∧ Size = 4) ∨ (T = i64 ∧ Size = 6) ∨ (T = i64 ∧ Size = 8) := by
    rcases h with h | h
    · exact Or.inr (Or.inr (Or.inl h))
    · exact Or.inr (Or.inr (Or.inr (Or.inr (Or.inl h))))
  have habs : stdAbs T (windowValue true Size buffer Endian.little) =
      (windowValue true Size buffer Endian.little).natAbs := by
    apply stdAbs_eq
    rw [windowValue_signed Size buffer Endian.little hlen]
    rcases h with h | h <;> obtain ⟨rfl, rfl⟩ := h
    · have hb := toSigned_bounds 23 (changeEndianess (memcpyIn buffer 3) 3 Endian.little : Int)
      have hy : i32.bytes = 4 := rfl
      simp only [hy, Nat.max_self, Nat.reduceMul, Nat.reduceSub, Nat.reduceAdd, p31, p23] at hb ⊢
      omega
    · have hb := toSigned_bounds 47 (changeEndianess (memcpyIn buffer 6) 6 Endian.little : Int)
      have hy : i64.bytes = 8 := rfl
      simp only [hy, Nat.reduceMul, Nat.reduceSub, Nat.reduceAdd, p63, p47,
        show Nat.max 8 4 = 8 from rfl] at hb ⊢
      omega
  unfold integerToString
  rw [if_pos hsig, signedToString_eq T Size hcase buffer Endian.little Style.Decimal hlen, habs]
  simp only [Style.pre, Style.base, Style.width, List.append_nil]
  exact decimal_text _

theorem sub_native_signed_decimal_witness :
    (3 ≤ ([0x00, 0x00, 0x80, 0x7F] : List UInt8).length) ∧
    integerToString i32 3 [0x00, 0x00, 0x80, 0x7F] Endian.little Style.Decimal =
      toString (windowValue true 3 [0x00, 0x00, 0x80, 0x7F] Endian.little) :=
  ⟨by decide, (sub_native_signed_decimal i32 3 (Or.inl ⟨rfl, rfl⟩) [0x00, 0x00, 0x80, 0x7F]
    (by decide)).1⟩

theorem toDigits_eight_length (m Size : Nat) (hS : 0 < Size) (h : m < 256 ^ Size) :
    (Nat.toDigits 8 m).length ≤ 3 * Size := by
  have h1 : 256 ^ Size ≤ 8 ^ (3 * Size) := by
    rw [pow_mul]
    exact Nat.pow_le_pow_left (by norm_num) Size
  exact Nat.toDigitsCore_length 8 (by norm_num) (m + 1) m (3 * Size) (lt_of_lt_of_le h h1)
    (by omega)

/-- C8 as stated fails: the 3-byte unsigned entry renders the window `00 00 00` in Octal
style as `0o` followed by 9 digits, not by ceil(24/3) = 8. -/
theorem octal_u24_has_nine_digits :
    integerToString u32 3 [0x00, 0x00, 0x00] Endian.little Style.Octal = "0o000000000" ∧
    (integerToString u32 3 [0x00, 0x00, 0x00] Endian.little Style.Octal).length = 2 + 9 ∧
    (integerToString u32 3 [0x00, 0x00, 0x00] Endian.little Style.Octal).length ≠ 2 + 8 := by
  decide

/-- C8 (amended): for every fixed-width integer entry of width `Size`, every byte order and
every window of at least `Size` bytes that does not hold the most negative value of a
4- or 8-byte signed type, Octal style renders a `-` when the value is negative, then
`0o`, then the octal digits of the magnitude zero-filled to exactly `3 * Size` digits. -/
theorem octal_digit_count (e : IntEntry) (he : e ∈ integerEntries) (buffer : List UInt8)
    (endian : Endian) (hlen : e.Size ≤ buffer.length)
    (hmin : ¬ (e.T.signed = true ∧ 4 ≤ e.T.bytes ∧
      windowValue e.T.signed e.Size buffer endian = e.T.min)) :
    e.decode buffer endian Style.Octal =
        String.mk ((if windowValue e.T.signed e.Size buffer endian < 0 then ['-'] else []) ++
          ['0', 'o'] ++
          (List.replicate (3 * e.Size -
              (Nat.toDigits 8 (windowValue e.T.signed e.Size buffer endian).natAbs).length) '0'
            ++ Nat.toDigits 8 (windowValue e.T.signed e.Size buffer endian).natAbs)) ∧
      (List.replicate (3 * e.Size -
              (Nat.toDigits 8 (windowValue e.T.signed e.Size buffer endian).natAbs).length) '0'
            ++ Nat.toDigits 8 (windowValue e.T.signed e.Size buffer endian).natAbs).length
        = 3 * e.Size := by
  obtain ⟨hdec, hlt⟩ := decode_regular e he buffer endian Style.Octal hlen hmin
  have hlen8 := toDigits_eight_length _ e.Size (entry_size_le e he).1 hlt
  constructor
  · rw [hdec]
    simp only [Style.pre, Style.base, Style.width, digits_le_ten 8 (by norm_num) (by norm_num),
      Nat.mul_comm e.Size 3]
  · rw [List.length_append, List.length_replicate]
    omega

theorem octal_digit_count_witness :
    (⟨"hex.builtin.inspector.i24", i32, 3⟩ : IntEntry).decode [0xFF, 0xFF, 0xFF]
      Endian.big Style.Octal = "-0o000000001" :=
  (octal_digit_count ⟨"hex.builtin.inspector.i24", i32, 3⟩ (by decide) [0xFF, 0xFF, 0xFF]
    Endian.big (by decide) (by decide)).1.trans (by decide)

/-- C7, at the failing input: the signed 8-bit value -1 renders `-0x01` in Hexadecimal
style, but the 4-byte signed window `00 00 00 80` (little-endian), which holds
-2147483648, renders `-0x-80000000` instead of `-0x80000000`. -/
theorem hex_i32_min_breaks :
    integerToString i8 1 [0xFF] Endian.little Style.Hexadecimal = "-0x01" ∧
    windowValue true 4 [0x00, 0x00, 0x00, 0x80] Endian.little = -2147483648 ∧
    integerToString i32 4 [0x00, 0x00, 0x00, 0x80] Endian.little Style.Hexadecimal =
      "-0x-80000000" := by
  decide

/-- C9: whenever the encoder of a fixed-width integer entry succeeds on a text, the
little-endian result has exactly `Size` bytes, its byte `i` is bits `8i..8i+7` of the
parsed value (floor division, so two's complement for a negative value), and the
big-endian result is the reversal of the little-endian one. -/
theorem encode_layout (e : IntEntry) (he : e ∈ integerEntries) (text : String)
    (hok : e.encode text Endian.little ≠ []) :
    (e.encode text Endian.little).length = e.Size ∧
      (∀ i, i < e.Size → (e.encode text Endian.little)[i]? =
        some (UInt8.ofNat ((parsedValue e.T text / 2 ^ (8 * i)) % 256).toNat)) ∧
      e.encode text Endian.big = (e.encode text Endian.little).reverse := by
  have h8 : e.Size ≤ 8 := le_trans (entry_size_le e he).2.1 (entry_size_le e he).2.2
  unfold IntEntry.encode stringToInteger parsedValue at *
  by_cases hs : e.T.signed = true
  · simp only [hs, if_true] at hok ⊢
    unfold stringToSigned at *
    by_cases hr : strtoll text.data > e.T.max ∨ strtoll text.data < e.T.min
    · simp [hr] at hok
    · simp only [hr, if_false, Endian.native, ne_eq, not_true_eq_false, reduceCtorEq,
        not_false_eq_true, if_true]
      refine ⟨toBytes_length _ _, ?_, trivial⟩
      intro i hi
      rw [toBytes_getElem? _ _ _ hi, signed_byte _ i (by omega)]
  · simp only [hs, if_false] at hok ⊢
    unfold stringToUnsigned at *
    by_cases hr : (strtoull text.data : Int) > e.T.max
    · simp [hr] at hok
    · simp only [hr, if_false, Endian.native, ne_eq, not_true_eq_false, reduceCtorEq,
        not_false_eq_true, if_true]
      refine ⟨toBytes_length _ _, ?_, trivial⟩
      intro i hi
      rw [toBytes_getElem? _ _ _ hi, unsigned_byte]

theorem encode_layout_witness :
    (⟨"hex.builtin.inspector.i24", i32, 3⟩ : IntEntry).encode "-2" Endian.little ≠ [] ∧
    (⟨"hex.builtin.inspector.i24", i32, 3⟩ : IntEntry).encode "-2" Endian.little
      = [0xFE, 0xFF, 0xFF] ∧
    (⟨"hex.builtin.inspector.i24", i32, 3⟩ : IntEntry).encode "-2" Endian.big =
      ((⟨"hex.builtin.inspector.i24", i32, 3⟩ : IntEntry).encode "-2" Endian.little).reverse :=
  ⟨by decide, by decide,
    (encode_layout ⟨"hex.builtin.inspector.i24", i32, 3⟩ (by decide) "-2" (by decide)).2.2⟩

/-- C10, at the failing input: the byte `B1` renders `0b10110001`, but encoding the text
`0b10110001` gives the empty result, because the length test counts the two characters
of the `0b`; only the text without it, `10110001`, encodes to the byte `B1`. -/
theorem binary_roundtrip_breaks :
    binaryDecode [0xB1] Endian.little Style.Decimal = some "0b10110001" ∧
    binaryEncode "0b10110001" Endian.little = [] ∧
    binaryEncode "10110001" Endian.little = [0xB1] := by
  decide

/-! ## The claims on the other entries -/

/-- Decimal rendering away from the overflow of `std::abs`: every window of at least `Size`
bytes that does not hold the most negative value of a 4- or 8-byte signed type renders in
Decimal style as the decimal text of its value, a single `-` and the digits of the
magnitude for a negative value. -/
theorem decimal_regular (e : IntEntry) (he : e ∈ integerEntries) (buffer : List UInt8)
    (endian : Endian) (hlen : e.Size ≤ buffer.length)
    (hmin : ¬ (e.T.signed = true ∧ 4 ≤ e.T.bytes ∧
      windowValue e.T.signed e.Size buffer endian = e.T.min)) :
    e.decode buffer endian Style.Decimal =
      toString (windowValue e.T.signed e.Size buffer endian) := by
  rw [(decode_regular e he buffer endian Style.Decimal hlen hmin).1, ← decimal_text,
    formatInt_ofNat]
  simp only [Style.pre, Style.base, Style.width, List.append_nil]

/-- C17: for every window whose first byte is `b`, whatever the byte order and the style,
the boolean entry renders `false` for `b = 0`, `true` for `b = 1` and `Invalid` for every
`b` from 2 to 255. -/
theorem bool_rendering (b : UInt8) (rest : List UInt8) (endian : Endian) (style : Style) :
    (b.toNat = 0 → boolDecode (b :: rest) endian style = some "false") ∧
    (b.toNat = 1 → boolDecode (b :: rest) endian style = some "true") ∧
    (2 ≤ b.toNat → boolDecode (b :: rest) endian style = some "Invalid") := by
  refine ⟨?_, ?_, ?_⟩ <;> intro h <;> simp only [boolDecode]
  · simp [h]
  · simp [h]
  · rw [if_neg (by omega), if_neg (by omega)]

theorem bool_rendering_witness :
    boolDecode [0x00, 0xAA] Endian.big Style.Octal = some "false" ∧
    boolDecode [0x01, 0xAA] Endian.big Style.Octal = some "true" ∧
    boolDecode [0xFF, 0xAA] Endian.big Style.Octal = some "Invalid" :=
  ⟨(bool_rendering 0x00 [0xAA] Endian.big Style.Octal).1 (by decide),
    (bool_rendering 0x01 [0xAA] Endian.big Style.Octal).2.1 (by decide),
    (bool_rendering 0xFF [0xAA] Endian.big Style.Octal).2.2 (by decide)⟩

/-- C19, at the failing input: the 8-byte signed window `00 00 00 00 00 00 00 80`
(little-endian) holds -9223372036854775808, the most negative value of the width, and
renders in Decimal style with two minus signs. -/
theorem i64_min_decimal_double_sign :
    windowValue true 8 [0x00, 0x00, 0x00, 0x00, 0x00, 0x00, 0x00, 0x80] Endian.little =
      -9223372036854775808 ∧
    integerToString i64 8 [0x00, 0x00, 0x00, 0x00, 0x00, 0x00, 0x00, 0x80] Endian.little
      Style.Decimal = "--9223372036854775808" := by
  decide

/-- C14 as stated fails: the maximum size of the LEB128 entries is not
ceil(128/7) + 1 = 20. -/
theorem leb128_max_size_not_twenty :
    leb128MaxSize ≠ (128 + 6) / 7 + 1 ∧ leb128MaxSize ≠ 20 := by
  decide

/-- C14 (amended): the sleb128 and uleb128 entries are registered with minimum size 1 and
maximum size floor(128/7) + 1 = 19 bytes, which is ceil(128/7): 19 groups of 7 bits hold
128 bits. -/
theorem leb128_sizes :
    leb128MinSize = 1 ∧ leb128MaxSize = 128 / 7 + 1 ∧ leb128MaxSize = 19 ∧
      leb128MaxSize = (128 + 6) / 7 ∧ 128 ≤ 7 * leb128MaxSize := by
  decide

theorem utf8ByteSize_go_ge (l : List Char) : l.length ≤ String.utf8ByteSize.go l := by
  induction l with
  | nil => simp [String.utf8ByteSize.go]
  | cons c cs ih =>
    have := Char.utf8Size_pos c
    simp only [String.utf8ByteSize.go, List.length_cons]
    omega

theorem length_le_utf8ByteSize (s : String) : s.length ≤ s.utf8ByteSize := by
  cases s with
  | mk l => exact utf8ByteSize_go_ge l

theorem utf8Size_ascii (c : Char) (h : c.toNat < 128) : c.utf8Size = 1 := by
  have hv : c.val ≤ 127 := by
    show c.val.toNat ≤ 127
    have : c.val.toNat = c.toNat := rfl
    omega
  simp [Char.utf8Size, hv]

theorem firstByte_singleton (c : Char) (h : c.toNat < 128) :
    firstByte (String.singleton c) = UInt8.ofNat c.toNat := by
  have hv : c.val ≤ 0x7f := by
    show c.val.toNat ≤ 127
    have : c.val.toNat = c.toNat := rfl
    omega
  show (String.utf8EncodeChar c).headD 0 = UInt8.ofNat c.toNat
  simp only [String.utf8EncodeChar, hv, if_true, List.headD_cons]
  rfl

/-- C16 as stated fails: the ASCII entry does not reject the empty text, it encodes it as
the byte 0. -/
theorem ascii_encode_accepts_empty :
    asciiEncode "" Endian.little = [0x00] ∧ asciiEncode "" Endian.little ≠ [] := by
  decide

/-- C16 (amended): the ASCII entry accepts a text of at most one byte: the single ASCII
character `c` encodes to `[c]`, the empty text encodes to the byte 0, and every text of
more than one byte (so every text of two or more characters) gives the empty result. -/
theorem ascii_encode_cases (value : String) (endian : Endian) :
    (∀ c : Char, value = String.singleton c → c.toNat < 128 →
      asciiEncode value endian = [UInt8.ofNat c.toNat]) ∧
    (value = "" → asciiEncode value endian = [0]) ∧
    (1 < value.utf8ByteSize → asciiEncode value endian = []) ∧
    (2 ≤ value.length → asciiEncode value endian = []) := by
  refine ⟨?_, ?_, ?_, ?_⟩
  · intro c hc hlt
    subst hc
    have hsz : (String.singleton c).utf8ByteSize = 1 := by
      show 0 + c.utf8Size = 1
      rw [utf8Size_ascii c hlt]
    unfold asciiEncode
    rw [if_neg (by omega), firstByte_singleton c hlt]
  · intro h
    subst h
    rfl
  · intro h
    unfold asciiEncode
    rw [if_pos h]
  · intro h
    have := length_le_utf8ByteSize value
    unfold asciiEncode
    rw [if_pos (by omega)]

theorem ascii_encode_cases_witness :
    asciiEncode "A" Endian.big = [0x41] ∧ asciiEncode "AB" Endian.big = [] :=
  ⟨((ascii_encode_cases "A" Endian.big).1 'A' rfl (by decide)).trans (by decide),
    (ascii_encode_cases "AB" Endian.big).2.2.2 (by decide)⟩

theorem lor_one_of_even : ∀ k < 128, (2 * k) ||| 1 = 2 * k + 1 := by decide

theorem binaryLoop_digits (cs : List Char) (h : ∀ c ∈ cs, c = '0' ∨ c = '1') :
    ∀ a : Nat, binaryLoop cs (a % 256) = some (accumulate 2 cs a % 256) := by
  induction cs with
  | nil => intro a; rfl
  | cons c cs ih =>
    intro a
    have hc := h c (List.mem_cons_self _ _)
    have ih' := ih (fun d hd => h d (List.mem_cons_of_mem _ hd))
    have hmod : a % 256 * 2 % 256 = 2 * (a % 128) := by omega
    rcases hc with rfl | rfl
    · have hd : digitValue '0' = some 0 := rfl
      simp only [binaryLoop, accumulate, hd]
      rw [if_neg (by decide), if_pos trivial, if_pos (by decide), Nat.or_zero,
        ← ih' (a * 2 + 0)]
      congr 1
      omega
    · have hd : digitValue '1' = some 1 := rfl
      simp only [binaryLoop, accumulate, hd]
      rw [if_pos trivial, if_pos (by decide), hmod, lor_one_of_even _ (by omega),
        ← ih' (a * 2 + 1)]
      congr 1
      omega

theorem binaryLoop_other (cs : List Char) (h : ¬ ∀ c ∈ cs, c = '0' ∨ c = '1') :
    ∀ a : Nat, binaryLoop cs a = none := by
  induction cs with
  | nil => exact absurd (fun c hc => by simp at hc) h
  | cons c cs ih =>
    intro a
    simp only [binaryLoop]
    by_cases h1 : c = '1'
    · rw [if_pos h1]
      apply ih
      intro hall
      apply h
      intro d hd
      rcases List.mem_cons.mp hd with rfl | hd
      · exact Or.inr h1
      · exact hall d hd
    · rw [if_neg h1]
      by_cases h0 : c = '0'
      · rw [if_pos h0]
        apply ih
        intro hall
        apply h
        intro d hd
        rcases List.mem_cons.mp hd with rfl | hd
        · exact Or.inl h0
        · exact hall d hd
      · rw [if_neg h0]

theorem binaryEncode_eq (value : String) (endian : Endian) :
    binaryEncode value endian =
      if value.utf8ByteSize > 8 then []
      else match binaryLoop (withoutLeading0b value) 0 with
        | some byte => [UInt8.ofNat byte]
        | none => [] := rfl

/-- C11 as stated fails: the binary entry encodes the empty text to the byte 0 and the
3-digit text `101` to the byte 5 instead of rejecting them. -/
theorem binary_encode_accepts_short :
    binaryEncode "" Endian.little = [0x00] ∧ binaryEncode "101" Endian.little = [0x05] ∧
    binaryEncode "0b101" Endian.little = [0x05] := by
  decide

/-- C11 (amended): for a text of at most 8 characters as given, the binary entry succeeds
exactly when the text, after removing an optional leading `0b`, consists only of the
characters `0` and `1` (possibly none), and the result is the byte with these binary
digits; a text of more than 8 characters without a leading `0b`, and any text of more than
10 characters, gives the empty result. -/
theorem binary_encode_cases (value : String) (endian : Endian) :
    (value.utf8ByteSize ≤ 8 → (∀ c ∈ withoutLeading0b value, c = '0' ∨ c = '1') →
      binaryEncode value endian = [UInt8.ofNat (accumulate 2 (withoutLeading0b value) 0)]) ∧
    (value.utf8ByteSize ≤ 8 → ¬ (∀ c ∈ withoutLeading0b value, c = '0' ∨ c = '1') →
      binaryEncode value endian = []) ∧
    (8 < value.utf8ByteSize → hasLeading0b value = false ∨ 10 < value.utf8ByteSize →
      binaryEncode value endian = []) := by
  rw [binaryEncode_eq]
  refine ⟨?_, ?_, ?_⟩
  · intro hsz hall
    have h := binaryLoop_digits _ hall 0
    rw [Nat.zero_mod] at h
    rw [if_neg (by omega), h]
    simp only
    congr 1
    apply UInt8.ext
    rw [uint8_ofNat_toNat, uint8_ofNat_toNat, Nat.mod_mod]
  · intro hsz hall
    rw [if_neg (by omega), binaryLoop_other _ hall 0]
  · intro hsz _
    rw [if_pos hsz]

theorem binary_encode_cases_witness :
    binaryEncode "00000101" Endian.big = [0x05] ∧ binaryEncode "0b2" Endian.big = [] ∧
    binaryEncode "101100011" Endian.big = [] :=
  ⟨((binary_encode_cases "00000101" Endian.big).1 (by decide) (by decide)).trans (by decide),
    (binary_encode_cases "0b2" Endian.big).2.1 (by decide) (by decide),
    (binary_encode_cases "101100011" Endian.big).2.2 (by decide) (Or.inl (by decide))⟩

theorem word16_eq (buffer : List UInt8) (endian : Endian) (h : 2 ≤ buffer.length) :
    word16 buffer endian = changeEndianess (fromBytes (buffer.take 2)) 2 endian := by
  unfold word16
  rw [windowValue_unsigned 2 buffer endian h, Int.toNat_ofNat]
  rfl

theorem invalid_not_prefix_of_brace (rest : List Char) :
    ¬ ("Invalid ".data <+: '{' :: rest) := by
  intro h
  obtain ⟨t, ht⟩ := h
  have := (List.cons.inj ht).1
  exact absurd this (by decide)

/-- C12: for every window of (at least) 16 bytes and both byte orders, the GUID entry renders a text that
starts with `Invalid ` exactly when the version nibble (the top 4 bits of the third field,
bytes 6 and 7 read in the byte order) is greater than 5 or the variant nibble (the top 4
bits of byte 8, the first byte of the tail) is between 1 and 7. -/
theorem guid_invalid_iff (buffer : List UInt8) (endian : Endian) (style : Style)
    (h : 16 ≤ buffer.length) :
    ∃ text, guidDecode buffer endian style = some text ∧
      ("Invalid ".data <+: text.data ↔
        (5 < word16 (buffer.drop 6) endian / 4096 ∨
          (1 ≤ ((buffer.drop 8).getD 0 0).toNat / 16 ∧
            ((buffer.drop 8).getD 0 0).toNat / 16 ≤ 7))) := by
  have h6 : 2 ≤ (buffer.drop 6).length := by rw [List.length_drop]; omega
  have hw := word16_eq (buffer.drop 6) endian h6
  unfold guidDecode
  rw [if_neg (by omega)]
  refine ⟨_, rfl, ?_⟩
  simp only [Nat.shiftRight_eq_div_pow, ← hw, Nat.reducePow]
  by_cases hv : word16 (buffer.drop 6) endian / 4096 ≤ 5 ∧
      (((buffer.drop 8).getD 0 0).toNat / 16 ≥ 8 ∨ ((buffer.drop 8).getD 0 0).toNat / 16 = 0)
  · have hvalid : (decide (word16 (buffer.drop 6) endian / 4096 ≤ 5) &&
        (decide (((buffer.drop 8).getD 0 0).toNat / 16 ≥ 8) ||
          decide (((buffer.drop 8).getD 0 0).toNat / 16 = 0))) = true := by
      simpa using hv
    rw [hvalid]
    simp only [if_true, List.nil_append, List.append_assoc, List.singleton_append]
    constructor
    · intro hp
      exact absurd hp (invalid_not_prefix_of_brace _)
    · intro hc
      omega
  · have hvalid : (decide (word16 (buffer.drop 6) endian / 4096 ≤ 5) &&
        (decide (((buffer.drop 8).getD 0 0).toNat / 16 ≥ 8) ||
          decide (((buffer.drop 8).getD 0 0).toNat / 16 = 0))) = false := by
      simpa using hv
    rw [hvalid]
    simp only [Bool.false_eq_true, if_false, List.append_assoc]
    constructor
    · intro _
      omega
    · intro _
      exact List.prefix_append _ _

theorem guid_invalid_iff_witness :
    guidDecode [0x33, 0x22, 0x11, 0x00, 0x55, 0x44, 0x77, 0x46, 0x88, 0x99, 0xAA, 0xBB, 0xCC,
      0xDD, 0xEE, 0xFF] Endian.little Style.Decimal
      = some "{00112233-4455-4677-8899-AABBCCDDEEFF}" ∧
    guidDecode [0x33, 0x22, 0x11, 0x00, 0x55, 0x44, 0x77, 0x46, 0x48, 0x99, 0xAA, 0xBB, 0xCC,
      0xDD, 0xEE, 0xFF] Endian.little Style.Decimal
      = some "Invalid {00112233-4455-4677-4899-AABBCCDDEEFF}" ∧
    ∃ text, guidDecode [0x33, 0x22, 0x11, 0x00, 0x55, 0x44, 0x77, 0x46, 0x48, 0x99, 0xAA, 0xBB,
      0xCC, 0xDD, 0xEE, 0xFF] Endian.little Style.Decimal = some text ∧
      ("Invalid ".data <+: text.data ↔
        (5 < word16 (List.drop 6 [0x33, 0x22, 0x11, 0x00, 0x55, 0x44, 0x77, 0x46, 0x48, 0x99,
          0xAA, 0xBB, 0xCC, 0xDD, 0xEE, 0xFF]) Endian.little / 4096 ∨
          (1 ≤ ((List.drop 8 [0x33, 0x22, 0x11, 0x00, 0x55, 0x44, 0x77, 0x46, 0x48, 0x99,
            0xAA, 0xBB, 0xCC, 0xDD, 0xEE, 0xFF]).getD 0 (0 : UInt8)).toNat / 16 ∧
            ((List.drop 8 [0x33, 0x22, 0x11, 0x00, 0x55, 0x44, 0x77, 0x46, 0x48, 0x99,
            0xAA, 0xBB, 0xCC, 0xDD, 0xEE, 0xFF]).getD 0 (0 : UInt8)).toNat / 16 ≤ 7))) :=
  ⟨by decide, by decide,
    guid_invalid_iff [0x33, 0x22, 0x11, 0x00, 0x55, 0x44, 0x77, 0x46, 0x48, 0x99, 0xAA, 0xBB,
      0xCC, 0xDD, 0xEE, 0xFF] Endian.little Style.Decimal (by decide)⟩

/-- The field `{:02}` for a number below 64: zero-filled to two digits. -/
theorem formatInt_two_digits :
    ∀ n < 64, String.mk (formatInt 10 2 (n : Nat)) =
      (if n < 10 then "0" ++ toString n else toString n) := by
  decide

theorem low_word_of_four (buffer : List UInt8) (h : 4 ≤ buffer.length) :
    fromBytes (buffer.take 4) % 65536 = fromBytes (buffer.take 2) := by
  match buffer, h with
  | b0 :: b1 :: b2 :: b3 :: rest, _ =>
    have h0 := b0.toNat_lt
    have h1 := b1.toNat_lt
    simp only [List.take, fromBytes]
    omega

/-- The 16-bit value the DOS date and time entries take their bit-fields from, when the
struct has 2 bytes, or has 4 bytes and the byte order is the native one: the first two
bytes of the window in the byte order. -/
theorem dos_struct_word (structSize : Nat) (buffer : List UInt8) (endian : Endian)
    (hs : structSize = 2 ∨ (structSize = 4 ∧ endian = Endian.little))
    (hlen : structSize ≤ buffer.length) :
    changeEndianess (memcpyIn buffer structSize) structSize endian % 65536 =
      word16 buffer endian ∧ word16 buffer endian < 65536 := by
  have hw : word16 buffer endian < 65536 := by
    have h2 : 2 ≤ buffer.length := by rcases hs with h | h <;> omega
    rw [word16_eq buffer endian h2]
    have := changeEndianess_lt 2 buffer endian h2
    unfold memcpyIn at this
    omega
  refine ⟨?_, hw⟩
  rcases hs with rfl | ⟨rfl, rfl⟩
  · rw [word16_eq buffer endian hlen] at hw ⊢
    unfold memcpyIn
    omega
  · rw [word16_eq buffer Endian.little (by omega)]
    unfold changeEndianess memcpyIn Endian.native
    rw [if_pos rfl, if_pos rfl]
    exact low_word_of_four buffer hlen

/-- What the DOS date entry renders when the struct has 2 bytes, or has 4 bytes and the
byte order is little-endian: with `x` the first two bytes read in the byte order, the text
`D/M/Y` of `x` bits 0-4, `x` bits 5-8 and 1980 plus `x` bits 9-15, without padding. -/
theorem dos_date_rendering (structSize : Nat) (buffer : List UInt8) (endian : Endian)
    (style : Style) (hs : structSize = 2 ∨ (structSize = 4 ∧ endian = Endian.little))
    (hlen : structSize ≤ buffer.length) :
    dosDateDecodeAt structSize buffer endian style =
      some (toString (word16 buffer endian % 32) ++ "/" ++
        toString (word16 buffer endian / 32 % 16) ++ "/" ++
        toString (1980 + word16 buffer endian / 512 % 128)) := by
  obtain ⟨hw, hlt⟩ := dos_struct_word structSize buffer endian hs hlen
  unfold dosDateDecodeAt
  rw [if_neg (by omega)]
  have e1 : changeEndianess (memcpyIn buffer structSize) structSize endian % 32 =
      word16 buffer endian % 32 := by omega
  have e2 : changeEndianess (memcpyIn buffer structSize) structSize endian / 32 % 16 =
      word16 buffer endian / 32 % 16 := by omega
  have e3 : ((changeEndianess (memcpyIn buffer structSize) structSize endian / 512 % 128 : Nat)
      : Int) + 1980 = ((1980 + word16 buffer endian / 512 % 128 : Nat) : Int) := by omega
  simp only [e1, e2, e3, formatInt_ofNat, digits_ten, Nat.zero_sub, List.replicate_zero,
    List.nil_append]
  rfl

/-- C13, at the failing input: the struct `DOSDate` has 4 bytes, so a 2-byte window is not
enough for the entry (the copy of 4 bytes leaves it), and in big-endian order the entry
reorders 4 bytes and takes the date from bytes 2 and 3: the window `00 21 FF FF`, whose
first two bytes hold day 1, month 1, year field 0, renders `31/15/2107`. In little-endian
order a 4-byte window starting `21 00` renders `1/1/1980`. -/
theorem dos_date_reads_four_bytes :
    sizeofDOSStruct = 4 ∧
    dosDateDecode [0x21, 0x00] Endian.little Style.Decimal = none ∧
    word16 [0x00, 0x21, 0xFF, 0xFF] Endian.big = 0x0021 ∧
    dosDateDecode [0x00, 0x21, 0xFF, 0xFF] Endian.big Style.Decimal = some "31/15/2107" ∧
    dosDateDecode [0x21, 0x00, 0xFF, 0xFF] Endian.little Style.Decimal = some "1/1/1980" := by
  decide

/-- What the DOS time entry renders when the struct has 2 bytes, or has 4 bytes and the
byte order is little-endian: with `x` the first two bytes read in the byte order, the text
`HH:MM:SS` of `x` bits 11-15, `x` bits 5-10 and twice `x` bits 0-4, each zero-filled to
two digits; the seconds rendered are even and at most 62. -/
theorem dos_time_rendering (structSize : Nat) (buffer : List UInt8) (endian : Endian)
    (style : Style) (hs : structSize = 2 ∨ (structSize = 4 ∧ endian = Endian.little))
    (hlen : structSize ≤ buffer.length) :
    dosTimeDecodeAt structSize buffer endian style =
        some ((if word16 buffer endian / 2048 % 32 < 10 then
            "0" ++ toString (word16 buffer endian / 2048 % 32)
            else toString (word16 buffer endian / 2048 % 32)) ++ ":" ++
          (if word16 buffer endian / 32 % 64 < 10 then
            "0" ++ toString (word16 buffer endian / 32 % 64)
            else toString (word16 buffer endian / 32 % 64)) ++ ":" ++
          (if 2 * (word16 buffer endian % 32) < 10 then
            "0" ++ toString (2 * (word16 buffer endian % 32))
            else toString (2 * (word16 buffer endian % 32)))) ∧
      2 * (word16 buffer endian % 32) % 2 = 0 ∧ 2 * (word16 buffer endian % 32) ≤ 62 := by
  obtain ⟨hw, hlt⟩ := dos_struct_word structSize buffer endian hs hlen
  refine ⟨?_, by omega, by omega⟩
  unfold dosTimeDecodeAt
  rw [if_neg (by omega)]
  have e1 : changeEndianess (memcpyIn buffer structSize) structSize endian / 2048 % 32 =
      word16 buffer endian / 2048 % 32 := by omega
  have e2 : changeEndianess (memcpyIn buffer structSize) structSize endian / 32 % 64 =
      word16 buffer endian / 32 % 64 := by omega
  have e3 : ((changeEndianess (memcpyIn buffer structSize) structSize endian % 32 : Nat)
      : Int) * 2 = ((2 * (word16 buffer endian % 32) : Nat) : Int) := by omega
  have f1 := formatInt_two_digits (word16 buffer endian / 2048 % 32) (by omega)
  have f2 := formatInt_two_digits (word16 buffer endian / 32 % 64) (by omega)
  have f3 := formatInt_two_digits (2 * (word16 buffer endian % 32)) (by omega)
  simp only [e1, e2, e3]
  rw [← f1, ← f2, ← f3]
  rfl

/-- C18, at the failing input: the struct `DOSTime` has 4 bytes, so a 2-byte window is not
enough for the entry (the copy of 4 bytes leaves it), and in big-endian order the entry
reorders 4 bytes and takes the time from bytes 2 and 3: the window `08 21 00 00`, whose
first two bytes hold 01:01:02, renders `00:00:00`. In little-endian order a 4-byte window
starting `21 08` renders `01:01:02`. -/
theorem dos_time_reads_four_bytes :
    sizeofDOSStruct = 4 ∧
    dosTimeDecode [0x21, 0x08] Endian.little Style.Decimal = none ∧
    word16 [0x08, 0x21, 0x00, 0x00] Endian.big = 0x0821 ∧
    dosTimeDecode [0x08, 0x21, 0x00, 0x00] Endian.big Style.Decimal = some "00:00:00" ∧
    dosTimeDecode [0x21, 0x08, 0x00, 0x00] Endian.little Style.Decimal = some "01:01:02" := by
  decide

theorem digitValue_upper_digitChar (k : Nat) (hk : k < 16) :
    digitValue (Nat.digitChar k).toUpper = some k := by
  interval_cases k <;> rfl

theorem accumulate_upper_toDigitsCore (b : Nat) (hb2 : 2 ≤ b) (hb16 : b ≤ 16) (f : Nat) :
    ∀ (n : Nat) (tail : List Char), n < f →
      accumulate b ((Nat.toDigitsCore b f n tail).map Char.toUpper) 0 =
        accumulate b (tail.map Char.toUpper) n := by
  induction f with
  | zero => intro n tail h; omega
  | succ f ih =>
    intro n tail h
    have hmod : n % b < b := Nat.mod_lt _ (by omega)
    have hstep : accumulate b ((Nat.digitChar (n % b) :: tail).map Char.toUpper) (n / b) =
        accumulate b (tail.map Char.toUpper) n := by
      rw [List.map_cons, accumulate, digitValue_upper_digitChar _ (by omega)]
      simp only [hmod, if_true]
      rw [Nat.mul_comm, Nat.div_add_mod]
    simp only [Nat.toDigitsCore]
    split_ifs with h0
    · rw [← hstep, h0]
    · have hlt : n / b < f := by
        have : n / b < n := Nat.div_lt_self (by
          rcases Nat.eq_zero_or_pos n with hn | hn
          · rw [hn] at h0; simp at h0
          · exact hn) (by omega)
        omega
      rw [ih _ _ hlt, hstep]

theorem accumulate_digits (b : Nat) (hb2 : 2 ≤ b) (hb16 : b ≤ 16) (n : Nat) :
    accumulate b (digits b n) 0 = n := by
  unfold digits Nat.toDigits
  rw [accumulate_upper_toDigitsCore b hb2 hb16 (n + 1) n [] (by omega)]
  rfl

theorem accumulate_leading_zeros (b : Nat) (hb : 0 < b) (k : Nat) (l : List Char) :
    accumulate b (List.replicate k '0' ++ l) 0 = accumulate b l 0 := by
  induction k with
  | zero => rfl
  | succ k ih =>
    have hd : digitValue '0' = some 0 := rfl
    rw [List.replicate_succ, List.cons_append, accumulate, hd]
    simp only [hb, if_true, Nat.zero_mul, Nat.add_zero]
    exact ih

theorem parseInteger_hex_text (k n : Nat) :
    parseInteger (['0', 'x'] ++ (List.replicate k '0' ++ digits 16 n)) = (false, n) := by
  have h : magnitude ('0' :: 'x' :: (List.replicate k '0' ++ digits 16 n)) = n := by
    show (if 'x' = 'x' ∨ 'x' = 'X' then
        accumulate 16 (List.replicate k '0' ++ digits 16 n) 0
      else accumulate 8 ('x' :: (List.replicate k '0' ++ digits 16 n)) 0) = n
    rw [if_pos (Or.inl rfl), accumulate_leading_zeros 16 (by norm_num),
      accumulate_digits 16 (by norm_num) (by norm_num)]
  unfold parseInteger
  rw [show ['0', 'x'] ++ (List.replicate k '0' ++ digits 16 n) =
    '0' :: 'x' :: (List.replicate k '0' ++ digits 16 n) from rfl,
    List.dropWhile_cons_of_neg (by decide)]
  show (false, magnitude ('0' :: 'x' :: (List.replicate k '0' ++ digits 16 n))) = (false, n)
  rw [h]

theorem unsigned_fits (e : IntEntry) (he : e ∈ integerEntries) (hu : e.T.signed = false)
    (n : Nat) (hn : n < 256 ^ e.Size) : (n : Int) ≤ e.T.max ∧ n ≤ 2 ^ 64 - 1 := by
  obtain ⟨p7, p8, p15, p16, p23, p24, p31, p32, p47, p48, p63, p64⟩ := pow_facts
  rcases entry_cases e he with h | h | h | h | h | h | h | h | h | h | h | h <;>
    obtain ⟨hT, hS⟩ := h <;> rw [hT] at hu <;>
    simp only [hT, hS, u8, i8, u16, i16, u32, i32, u64, i64, IntType.max, IntType.bits,
      Nat.reduceMul, Nat.reduceSub, Nat.reducePow, if_true, Bool.false_eq_true, if_false,
      Bool.true_eq_false, p8, p16, p32, p64] at hu hn ⊢ <;>
    omega

theorem encode_of_parse (e : IntEntry) (he : e ∈ integerEntries) (hu : e.T.signed = false)
    (text : String) (n : Nat) (hp : parseInteger text.data = (false, n))
    (hn : n < 256 ^ e.Size) (endian : Endian) :
    e.encode text endian =
      if endian ≠ Endian.native then (toBytes n e.Size).reverse else toBytes n e.Size := by
  obtain ⟨hmax, h64⟩ := unsigned_fits e he hu n hn
  have hs : strtoull text.data = n := by
    unfold strtoull
    rw [hp]
    simp only [Bool.false_eq_true, if_false]
    rw [if_neg (by omega)]
  unfold IntEntry.encode stringToInteger
  rw [if_neg (by simp [hu])]
  unfold stringToUnsigned
  simp only [hs]
  rw [if_neg (by omega)]

theorem encode_window_number (Size : Nat) (w : List UInt8) (hw : w.length = Size)
    (endian : Endian) :
    (if endian ≠ Endian.native then
        (toBytes (changeEndianess (memcpyIn w Size) Size endian) Size).reverse
      else toBytes (changeEndianess (memcpyIn w Size) Size endian) Size) = w := by
  rw [changeEndianess_memcpyIn Size w endian (le_of_eq hw.symm),
    List.take_of_length_le (le_of_eq hw)]
  cases endian with
  | little =>
    simp only [Endian.native, ne_eq, not_true_eq_false, if_false, if_true]
    rw [← hw, toBytes_fromBytes]
  | big =>
    simp only [Endian.native, ne_eq, reduceCtorEq, not_false_eq_true, if_true, if_false]
    have := toBytes_fromBytes w.reverse
    rw [List.length_reverse, hw] at this
    rw [this, List.reverse_reverse]

/-- C20: for every unsigned fixed-width integer entry, both byte orders and every window
of exactly `Size` bytes, encoding the text the entry decodes the window to gives the window
back, for the Decimal style and for the Hexadecimal style. -/
theorem unsigned_encode_decode (e : IntEntry) (he : e ∈ integerEntries)
    (hu : e.T.signed = false) (endian : Endian) (w : List UInt8) (hw : w.length = e.Size) :
    e.encode (e.decode w endian Style.Decimal) endian = w ∧
      e.encode (e.decode w endian Style.Hexadecimal) endian = w := by
  have hS := (entry_size_le e he).2.1
  have hlen : e.Size ≤ w.length := le_of_eq hw.symm
  have hlt := changeEndianess_lt e.Size w endian hlen
  have hdec : ∀ style, e.decode w endian style =
      String.mk (style.pre ++ formatInt style.base (style.width e.Size)
        ((changeEndianess (memcpyIn w e.Size) e.Size endian : Nat) : Int)) := by
    intro style
    unfold IntEntry.decode integerToString
    rw [if_neg (by simp [hu]), unsignedToString_eq e.T e.Size hS w endian style hlen,
      windowValue_unsigned e.Size w endian hlen]
  constructor
  · rw [hdec, encode_of_parse e he hu _ _ _ hlt endian, encode_window_number e.Size w hw]
    simp only [Style.pre, Style.base, Style.width, formatInt_ofNat, digits_ten, Nat.zero_sub,
      List.replicate_zero, List.nil_append]
    exact parseInteger_toDigits _
  · rw [hdec, encode_of_parse e he hu _ _ _ hlt endian, encode_window_number e.Size w hw]
    simp only [Style.pre, Style.base, Style.width, formatInt_ofNat]
    exact parseInteger_hex_text _ _

theorem unsigned_encode_decode_witness :
    (⟨"hex.builtin.inspector.u24", u32, 3⟩ : IntEntry).decode [0x00, 0xAB, 0xFF] Endian.big
      Style.Hexadecimal = "0x00ABFF" ∧
    (⟨"hex.builtin.inspector.u24", u32, 3⟩ : IntEntry).encode
      ((⟨"hex.builtin.inspector.u24", u32, 3⟩ : IntEntry).decode [0x00, 0xAB, 0xFF] Endian.big
        Style.Hexadecimal) Endian.big = [0x00, 0xAB, 0xFF] :=
  ⟨by decide,
    (unsigned_encode_decode ⟨"hex.builtin.inspector.u24", u32, 3⟩ (by decide) rfl Endian.big
      [0x00, 0xAB, 0xFF] rfl).2⟩

theorem encodeUleb128Loop_length (fuel : Nat) :
    ∀ v, (encodeUleb128Loop fuel v).length ≤ fuel := by
  induction fuel with
  | zero => intro v; simp [encodeUleb128Loop]
  | succ f ih =>
    intro v
    simp only [encodeUleb128Loop]
    split_ifs
    · simp
    · have := ih (v / 128)
      simp only [List.length_cons]
      omega

theorem encodeSleb128Loop_length (fuel : Nat) :
    ∀ v, (encodeSleb128Loop fuel v).length ≤ fuel := by
  induction fuel with
  | zero => intro v; simp [encodeSleb128Loop]
  | succ f ih =>
    intro v
    simp only [encodeSleb128Loop]
    split_ifs
    · simp
    · have := ih (v / 128)
      simp only [List.length_cons]
      omega

theorem decodeLeb128Loop_last (byte : Nat) (hb : byte < 128) (rest : List UInt8)
    (acc shift : Nat) (last : UInt8) :
    decodeLeb128Loop (UInt8.ofNat byte :: rest) acc shift last =
      (acc + byte * 2 ^ shift, shift + 7, UInt8.ofNat byte) := by
  have h1 : (UInt8.ofNat byte).toNat = byte := by rw [uint8_ofNat_toNat]; omega
  rw [decodeLeb128Loop]
  simp only [h1]
  rw [if_pos hb, Nat.mod_eq_of_lt hb]

theorem decodeLeb128Loop_more (byte : Nat) (hb : byte < 128) (rest : List UInt8)
    (acc shift : Nat) (last : UInt8) :
    decodeLeb128Loop (UInt8.ofNat (byte + 128) :: rest) acc shift last =
      decodeLeb128Loop rest (acc + byte * 2 ^ shift) (shift + 7) (UInt8.ofNat (byte + 128)) := by
  have h1 : (UInt8.ofNat (byte + 128)).toNat = byte + 128 := by rw [uint8_ofNat_toNat]; omega
  have h2 : (byte + 128) % 128 = byte := by omega
  rw [decodeLeb128Loop]
  simp only [h1]
  rw [if_neg (by omega), h2]

theorem decode_encodeUleb128Loop (fuel : Nat) :
    ∀ (v acc shift : Nat) (last : UInt8), v < 128 ^ fuel →
      (decodeLeb128Loop (encodeUleb128Loop fuel v) acc shift last).1 = acc + v * 2 ^ shift := by
  induction fuel with
  | zero =>
    intro v acc shift last h
    have : v = 0 := by simpa using h
    subst this
    simp [encodeUleb128Loop, decodeLeb128Loop]
  | succ f ih =>
    intro v acc shift last h
    have hm : v % 128 < 128 := Nat.mod_lt _ (by norm_num)
    simp only [encodeUleb128Loop]
    split_ifs with h0
    · have hv : v % 128 = v := by omega
      rw [decodeLeb128Loop_last _ hm, hv]
    · have hlt : v / 128 < 128 ^ f := by
        rw [pow_succ] at h
        exact Nat.div_lt_of_lt_mul (by rw [Nat.mul_comm]; exact h)
      rw [decodeLeb128Loop_more _ hm, ih _ _ _ _ hlt, pow_add]
      calc acc + v % 128 * 2 ^ shift + v / 128 * (2 ^ shift * 2 ^ 7)
          = acc + (v % 128 + 128 * (v / 128)) * 2 ^ shift := by ring
        _ = acc + v * 2 ^ shift := by rw [Nat.mod_add_div]

theorem sleb_stop (v : Int) (acc shift : Nat) (rest : List UInt8) (last : UInt8)
    (hc : (v / 128 = 0 ∧ (v % 128).toNat < 64) ∨ (v / 128 = -1 ∧ 64 ≤ (v % 128).toNat)) :
    (if 64 ≤ (decodeLeb128Loop (UInt8.ofNat (v % 128).toNat :: rest) acc shift last).2.2.toNat
          % 128
        then ((decodeLeb128Loop (UInt8.ofNat (v % 128).toNat :: rest) acc shift last).1 : Int) -
          2 ^ (decodeLeb128Loop (UInt8.ofNat (v % 128).toNat :: rest) acc shift last).2.1
        else ((decodeLeb128Loop (UInt8.ofNat (v % 128).toNat :: rest) acc shift last).1 : Int)) =
        (acc : Int) + v * 2 ^ shift := by
  have hm0 := Int.emod_nonneg v (show (128 : Int) ≠ 0 by norm_num)
  have hm1 := Int.emod_lt_of_pos v (show (0 : Int) < 128 by norm_num)
  have hb : (v % 128).toNat < 128 := by omega
  have hbt : (UInt8.ofNat (v % 128).toNat).toNat = (v % 128).toNat := by
    rw [uint8_ofNat_toNat]; omega
  have hp : (2 : Int) ^ (shift + 7) = 128 * 2 ^ shift := by rw [pow_add]; ring
  have hcast : (((v % 128).toNat : Nat) : Int) = v % 128 := by omega
  rw [decodeLeb128Loop_last _ hb]
  simp only [hbt]
  push_cast
  rw [hp, hcast]
  rcases hc with ⟨hr, hlt⟩ | ⟨hr, hge⟩
  · rw [if_neg (by omega)]
    have hv : v % 128 = v := by omega
    rw [hv]
  · rw [if_pos (by omega)]
    have hv : v % 128 = v + 128 := by omega
    rw [hv]
    ring

theorem decode_encodeSleb128Loop (k : Nat) :
    ∀ (v : Int) (acc shift : Nat) (last : UInt8), -(64 * 128 ^ k) ≤ v → v < 64 * 128 ^ k →
      (if 64 ≤ (decodeLeb128Loop (encodeSleb128Loop (k + 1) v) acc shift last).2.2.toNat % 128
        then ((decodeLeb128Loop (encodeSleb128Loop (k + 1) v) acc shift last).1 : Int) -
          2 ^ (decodeLeb128Loop (encodeSleb128Loop (k + 1) v) acc shift last).2.1
        else ((decodeLeb128Loop (encodeSleb128Loop (k + 1) v) acc shift last).1 : Int)) =
        (acc : Int) + v * 2 ^ shift := by
  induction k with
  | zero =>
    intro v acc shift last h1 h2
    have hm0 := Int.emod_nonneg v (show (128 : Int) ≠ 0 by norm_num)
    have hm1 := Int.emod_lt_of_pos v (show (0 : Int) < 128 by norm_num)
    have hc : (v / 128 = 0 ∧ (v % 128).toNat < 64) ∨ (v / 128 = -1 ∧ 64 ≤ (v % 128).toNat) := by
      omega
    rw [encodeSleb128Loop]
    simp only [if_pos hc]
    exact sleb_stop v acc shift [] last hc
  | succ k ih =>
    intro v acc shift last h1 h2
    have hm0 := Int.emod_nonneg v (show (128 : Int) ≠ 0 by norm_num)
    have hm1 := Int.emod_lt_of_pos v (show (0 : Int) < 128 by norm_num)
    have hb : (v % 128).toNat < 128 := by omega
    rw [pow_succ] at h1 h2
    have henc : encodeSleb128Loop (k + 1 + 1) v =
        if (v / 128 = 0 ∧ (v % 128).toNat < 64) ∨ (v / 128 = -1 ∧ 64 ≤ (v % 128).toNat) then
          [UInt8.ofNat (v % 128).toNat]
        else UInt8.ofNat ((v % 128).toNat + 128) :: encodeSleb128Loop (k + 1) (v / 128) := by
      rw [encodeSleb128Loop]
    by_cases hc : (v / 128 = 0 ∧ (v % 128).toNat < 64) ∨ (v / 128 = -1 ∧ 64 ≤ (v % 128).toNat)
    · rw [henc, if_pos hc]
      exact sleb_stop v acc shift [] last hc
    · rw [henc, if_neg hc]
      have hr1 : -(64 * 128 ^ k) ≤ v / 128 := by
        set q : Int := 64 * 128 ^ k
        omega
      have hr2 : v / 128 < 64 * 128 ^ k := by
        set q : Int := 64 * 128 ^ k
        omega
      have hp : (2 : Int) ^ (shift + 7) = 128 * 2 ^ shift := by rw [pow_add]; ring
      have e2 : (((v % 128).toNat : Nat) : Int) = v % 128 := by omega
      rw [decodeLeb128Loop_more _ hb, ih (v / 128) _ _ _ hr1 hr2]
      push_cast
      rw [hp, e2]
      calc (acc : Int) + v % 128 * 2 ^ shift + v / 128 * (128 * 2 ^ shift)
          = acc + (v % 128 + 128 * (v / 128)) * 2 ^ shift := by ring
        _ = acc + v * 2 ^ shift := by rw [Int.emod_add_ediv]

theorem toSigned_128_eq (v : Int) (h1 : -(2 ^ 127) ≤ v) (h2 : v < 2 ^ 127) :
    toSigned 128 v = v := by
  have e127 : (2 : Int) ^ 127 = 170141183460469231731687303715884105728 := by norm_num
  have e128 : (2 : Int) ^ 128 = 340282366920938463463374607431768211456 := by norm_num
  rw [e127] at h1 h2
  simp only [toSigned, Nat.reduceSub, e127, e128]
  split_ifs <;> omega

theorem decodeUleb128_encodeUleb128 (u : Nat) (hu : u < 2 ^ 128) :
    decodeUleb128 (encodeUleb128 u) = u := by
  have h19 : leb128MaxSize = 19 := rfl
  have hlt : u < 128 ^ 19 := lt_of_lt_of_le hu (by norm_num)
  unfold decodeUleb128 encodeUleb128
  rw [Nat.mod_eq_of_lt hu, h19, List.take_of_length_le (encodeUleb128Loop_length 19 u),
    decode_encodeUleb128Loop 19 u 0 0 0 hlt]
  simp only [Nat.zero_add, pow_zero, Nat.mul_one]
  exact Nat.mod_eq_of_lt hu

theorem decodeSleb128_encodeSleb128 (v : Int) (h1 : -(2 ^ 127) ≤ v) (h2 : v < 2 ^ 127) :
    decodeSleb128 (encodeSleb128 v) = v := by
  have h19 : leb128MaxSize = 19 := rfl
  have e127 : (2 : Int) ^ 127 = 170141183460469231731687303715884105728 := by norm_num
  have hr1 : -(64 * 128 ^ 18) ≤ v := by
    have : (64 : Int) * 128 ^ 18 = 5444517870735015415413993718908291383296 := by norm_num
    rw [this]; rw [e127] at h1; omega
  have hr2 : v < 64 * 128 ^ 18 := by
    have : (64 : Int) * 128 ^ 18 = 5444517870735015415413993718908291383296 := by norm_num
    rw [this]; rw [e127] at h2; omega
  have key := decode_encodeSleb128Loop 18 v 0 0 0 hr1 hr2
  unfold decodeSleb128 encodeSleb128
  rw [toSigned_128_eq v h1 h2, h19,
    List.take_of_length_le (encodeSleb128Loop_length 19 v)]
  simp only
  rw [key]
  simp only [Nat.cast_zero, zero_add, pow_zero, mul_one]
  exact toSigned_128_eq v h1 h2

/-- C15: for every signed 64-bit value `v` and every unsigned 64-bit value `u`, decoding
the LEB128 bytes of the value gives the value back; encoding the decimal text of the value
and decoding the bytes in Decimal style renders that decimal text again, and encoding the
text rendered reproduces the same bytes. The bytes encoded fit the maximum size of the
entries. -/
theorem leb128_roundtrip (v : Int) (u : Nat) (endian : Endian)
    (hv1 : -(2 ^ 63) ≤ v) (hv2 : v < 2 ^ 63) (hu : u < 2 ^ 64) :
    decodeSleb128 (encodeSleb128 v) = v ∧
    decodeUleb128 (encodeUleb128 u) = u ∧
    sleb128Decode (sleb128Encode (toString v) endian) endian Style.Decimal = toString v ∧
    uleb128Decode (uleb128Encode (toString u) endian) endian Style.Decimal = toString u ∧
    sleb128Encode (sleb128Decode (sleb128Encode (toString v) endian) endian Style.Decimal)
      endian = sleb128Encode (toString v) endian ∧
    uleb128Encode (uleb128Decode (uleb128Encode (toString u) endian) endian Style.Decimal)
      endian = uleb128Encode (toString u) endian ∧
    (encodeSleb128 v).length ≤ leb128MaxSize ∧ (encodeUleb128 u).length ≤ leb128MaxSize := by
  obtain ⟨p7, p8, p15, p16, p23, p24, p31, p32, p47, p48, p63, p64⟩ := pow_facts
  have e127 : (2 : Int) ^ 127 = 170141183460469231731687303715884105728 := by norm_num
  have hs1 : -(2 ^ 127) ≤ v := by rw [e127]; rw [p63] at hv1; omega
  have hs2 : v < 2 ^ 127 := by rw [e127]; rw [p63] at hv2; omega
  have hu128 : u < 2 ^ 128 := lt_of_lt_of_le hu (by norm_num)
  have hS := decodeSleb128_encodeSleb128 v hs1 hs2
  have hU := decodeUleb128_encodeUleb128 u hu128
  have hsText : sleb128Decode (sleb128Encode (toString v) endian) endian Style.Decimal =
      toString v := by
    unfold sleb128Decode sleb128Encode
    rw [strtoll_toString v hv1 hv2, hS]
    have habs : toSigned 128 (v.natAbs : Int) = v.natAbs := by
      apply toSigned_128_eq
      · rw [e127]; omega
      · rw [e127]; rw [p63] at hv1 hv2; omega
    simp only [habs, decide_eq_true_eq, Style.pre, Style.base, List.append_nil]
    exact decimal_text v
  have huText : uleb128Decode (uleb128Encode (toString u) endian) endian Style.Decimal =
      toString u := by
    have hparse : strtoull (toString u).data = u := by
      unfold strtoull
      rw [show (toString u).data = Nat.toDigits 10 u from rfl, parseInteger_toDigits]
      simp only [Bool.false_eq_true, if_false]
      rw [if_neg (by omega)]
    unfold uleb128Decode uleb128Encode
    rw [hparse, hU]
    simp only [Style.pre, Style.base, List.nil_append, formatInt_ofNat, digits_ten, Nat.zero_sub,
      List.replicate_zero]
    rfl
  exact ⟨hS, hU, hsText, huText, by rw [hsText], by rw [huText],
    encodeSleb128Loop_length 19 _, encodeUleb128Loop_length 19 _⟩

theorem leb128_roundtrip_witness :
    (-(2 ^ 63) ≤ (-9223372036854775808 : Int)) ∧ (18446744073709551615 < 2 ^ 64) ∧
    decodeSleb128 (encodeSleb128 (-9223372036854775808)) = -9223372036854775808 ∧
    decodeUleb128 (encodeUleb128 18446744073709551615) = 18446744073709551615 ∧
    sleb128Decode (sleb128Encode (toString (-9223372036854775808 : Int)) Endian.little)
      Endian.little Style.Decimal = toString (-9223372036854775808 : Int) :=
  ⟨by decide, by decide,
    (leb128_roundtrip (-9223372036854775808) 18446744073709551615 Endian.little
      (by decide) (by decide) (by decide)).1,
    (leb128_roundtrip (-9223372036854775808) 18446744073709551615 Endian.little
      (by decide) (by decide) (by decide)).2.1,
    (leb128_roundtrip (-9223372036854775808) 18446744073709551615 Endian.little
      (by decide) (by decide) (by decide)).2.2.1⟩

theorem memcpyIn_of_take (k Size : Nat) (hk : k ≤ Size) (b1 b2 : List UInt8)
    (h : b1.take Size = b2.take Size) : memcpyIn b1 k = memcpyIn b2 k := by
  unfold memcpyIn
  have e1 : b1.take k = (b1.take Size).take k := by
    rw [List.take_take, Nat.min_eq_left hk]
  have e2 : b2.take k = (b2.take Size).take k := by
    rw [List.take_take, Nat.min_eq_left hk]
  rw [e1, e2, h]

/-- C21: for every integer type and width `Size` (so for every fixed-width integer entry,
the 3- and 6-byte ones included), every byte order and every style, two windows of at
least `Size` bytes that agree on their first `Size` bytes are decoded to the same text. -/
theorem integerToString_first_bytes (T : IntType) (Size : Nat) (b1 b2 : List UInt8)
    (endian : Endian) (style : Style) (h1 : Size ≤ b1.length) (h2 : Size ≤ b2.length)
    (h : b1.take Size = b2.take Size) :
    integerToString T Size b1 endian style = integerToString T Size b2 endian style := by
  have hm := memcpyIn_of_take (Nat.min T.bytes Size) Size (Nat.min_le_right _ _) b1 b2 h
  unfold integerToString signedToString unsignedToString
  rw [if_neg (Nat.not_lt.mpr h1), if_neg (Nat.not_lt.mpr h2), if_neg (Nat.not_lt.mpr h1),
    if_neg (Nat.not_lt.mpr h2), hm]

theorem integerToString_first_bytes_witness :
    (3 ≤ ([0x00, 0x00, 0x80, 0x11] : List UInt8).length) ∧
    (3 ≤ ([0x00, 0x00, 0x80, 0xEE, 0xFF] : List UInt8).length) ∧
    integerToString i32 3 [0x00, 0x00, 0x80, 0x11] Endian.big Style.Hexadecimal =
      integerToString i32 3 [0x00, 0x00, 0x80, 0xEE, 0xFF] Endian.big Style.Hexadecimal :=
  ⟨by decide, by decide,
    integerToString_first_bytes i32 3 [0x00, 0x00, 0x80, 0x11] [0x00, 0x00, 0x80, 0xEE, 0xFF]
      Endian.big Style.Hexadecimal (by decide) (by decide) (by decide)⟩

/-- The two strings the closure of the byte string entry captures: with a selection present
and `s` the escaped string of the bytes read (at most 4096 of the selection), `copyValue`
is `s` in full and `value` is `s` itself when `s` has at most 32 chars, otherwise the first
32 chars of `s` followed by `...`, never more than 35 chars; with no selection both are
empty. -/
theorem string_display_and_copy (currSelection : Option Region)
    (read : Nat → Nat → List UInt8) (encodeByteString : List UInt8 → List UInt8)
    (buffer : List UInt8) (endian : Endian) (style : Style) :
    (∀ selection, currSelection = some selection →
      (stringDecode currSelection read encodeByteString buffer endian style).copyValue =
          encodeByteString (read selection.address (Nat.min selection.size 4096)) ∧
        ((encodeByteString (read selection.address (Nat.min selection.size 4096))).length ≤ 32 →
          (stringDecode currSelection read encodeByteString buffer endian style).value =
            encodeByteString (read selection.address (Nat.min selection.size 4096))) ∧
        (32 < (encodeByteString (read selection.address (Nat.min selection.size 4096))).length →
          (stringDecode currSelection read encodeByteString buffer endian style).value =
            (encodeByteString (read selection.address (Nat.min selection.size 4096))).take 32
              ++ ellipsis) ∧
        (stringDecode currSelection read encodeByteString buffer endian style).value.length
          ≤ 35) ∧
    (currSelection = none →
      stringDecode currSelection read encodeByteString buffer endian style = ⟨[], []⟩) := by
  constructor
  · intro selection hsel
    subst hsel
    simp only [stringDecode, MaxStringLength]
    refine ⟨trivial, ?_, ?_, ?_⟩
    · intro hle
      rw [if_neg (by omega)]
    · intro hgt
      rw [if_pos hgt]
    · split_ifs with hc
      · rw [List.length_append, List.length_take]
        have : ellipsis.length = 3 := rfl
        omega
      · omega
  · intro hnone
    subst hnone
    rfl

theorem string_display_and_copy_witness :
    (stringDecode (some ⟨16, 40⟩) (fun _ n => List.replicate n 0x41) id [] Endian.little
      Style.Decimal).copyValue = List.replicate 40 0x41 ∧
    (stringDecode (some ⟨16, 40⟩) (fun _ n => List.replicate n 0x41) id [] Endian.little
      Style.Decimal).value = List.replicate 32 0x41 ++ ellipsis ∧
    stringDecode none (fun _ n => List.replicate n 0x41) id [] Endian.little Style.Decimal =
      ⟨[], []⟩ :=
  ⟨((string_display_and_copy (some ⟨16, 40⟩) (fun _ n => List.replicate n 0x41) id []
      Endian.little Style.Decimal).1 ⟨16, 40⟩ rfl).1.trans (by decide),
    (((string_display_and_copy (some ⟨16, 40⟩) (fun _ n => List.replicate n 0x41) id []
      Endian.little Style.Decimal).1 ⟨16, 40⟩ rfl).2.2.1 (by decide)).trans (by decide),
    (string_display_and_copy none (fun _ n => List.replicate n 0x41) id []
      Endian.little Style.Decimal).2 rfl⟩

theorem char_toNat_valid (c : Char) :
    c.toNat < 0xD800 ∨ (0xDFFF < c.toNat ∧ c.toNat < 0x110000) := c.valid

theorem widePlaced_length (codePoint : Nat) (order : Endian) :
    (widePlaced codePoint order).length = wcharSize := by
  unfold widePlaced
  split_ifs
  · rw [toBytes_length]
  · rw [List.length_reverse, toBytes_length]

theorem widePlaced_number (codePoint : Nat) (h : codePoint < 256 ^ wcharSize)
    (order : Endian) :
    changeEndianess (memcpyIn (widePlaced codePoint order) wcharSize) wcharSize order =
      codePoint := by
  have hl := widePlaced_length codePoint order
  rw [changeEndianess_memcpyIn wcharSize _ order (le_of_eq hl.symm),
    List.take_of_length_le (le_of_eq hl)]
  unfold widePlaced
  cases order with
  | little =>
    simp only [if_true]
    rw [fromBytes_toBytes, Nat.mod_eq_of_lt h]
  | big =>
    simp only [reduceCtorEq, if_false]
    rw [List.reverse_reverse, fromBytes_toBytes, Nat.mod_eq_of_lt h]

/-- The decoder of the wide character entry on the bytes the round trip expects: the
`wchar_t`-wide bytes of the code point of a character above 255, placed in the byte order,
are rendered as the UTF-8 text of the character. -/
theorem wide_decode_placed (makePrintable : Nat → String) (c : Char) (h : 255 < c.toNat)
    (endian : Endian) (style : Style) :
    wideDecode makePrintable (widePlaced c.toNat endian) endian style = String.singleton c := by
  have hv := char_toNat_valid c
  have hlt : c.toNat < 256 ^ wcharSize := by
    have : (256 : Nat) ^ wcharSize = 4294967296 := by decide
    omega
  have hnum := widePlaced_number c.toNat hlt endian
  have hs : toSigned (8 * wcharSize) (c.toNat : Int) = c.toNat := by
    have e32 : (2 : Int) ^ 32 = 4294967296 := by norm_num
    have e31 : (2 : Int) ^ 31 = 2147483648 := by norm_num
    simp only [toSigned, wcharSize, Nat.reduceMul, Nat.reduceSub, e32, e31]
    split_ifs <;> omega
  unfold wideDecode
  rw [widePlaced_length, show Nat.min wcharSize wcharSize = wcharSize from Nat.min_self _]
  simp only [hnum, hs]
  rw [if_neg (by omega)]
  unfold to_bytes
  rw [if_pos (by omega), Int.toNat_ofNat, Char.ofNat_toNat]

/-- What the encoder of the wide character entry makes of a one-character text: a single
byte, the code point modulo 256, in either byte order. -/
theorem wide_encode_single (c : Char) (h : c.toNat ≠ 0) (endian : Endian) :
    wideEncode (String.singleton c) endian = [UInt8.ofNat c.toNat] := by
  have hd : (String.singleton c).data = [c] := rfl
  unfold wideEncode from_bytes
  rw [hd]
  have ht : List.takeWhile (fun c : Char => decide (c.toNat ≠ 0)) [c] = [c] := by
    simp [List.takeWhile, h]
  rw [ht]
  cases endian <;> simp [Endian.native]

/-- C23, at the failing input: the wide character entry encodes the text of U+0100, a
character above 255, to the single byte `00` in either byte order, not to the four bytes
`00 01 00 00` (little-endian) or `00 00 01 00` (big-endian) of its code point; decoding
what was encoded renders the "printable" form of the byte 0, whereas the four bytes of the
code point decode to the character. -/
theorem wide_roundtrip_breaks :
    wideEncode "Ā" Endian.little = [0x00] ∧ wideEncode "Ā" Endian.big = [0x00] ∧
    widePlaced 0x100 Endian.little = [0x00, 0x01, 0x00, 0x00] ∧
    widePlaced 0x100 Endian.big = [0x00, 0x00, 0x01, 0x00] ∧
    (∀ makePrintable : Nat → String,
      wideDecode makePrintable (wideEncode "Ā" Endian.little) Endian.little Style.Decimal =
        makePrintable 0) ∧
    (∀ makePrintable : Nat → String,
      wideDecode makePrintable (widePlaced 0x100 Endian.little) Endian.little Style.Decimal =
        "Ā") :=
  ⟨by decide, by decide, by decide, by decide, fun _ => rfl, fun _ => rfl⟩

theorem c_str_of_no_nul (text : List UInt8) (h : (0 : UInt8) ∉ text) : c_str text = text := by
  unfold c_str
  rw [List.takeWhile_eq_self_iff]
  intro x hx
  have : x ≠ 0 := fun hc => h (hc ▸ hx)
  simpa using this

theorem c_str_length_le (text : List UInt8) : (c_str text).length ≤ text.length := by
  unfold c_str
  induction text with
  | nil => simp
  | cons b bs ih =>
    simp only [List.takeWhile]
    split
    · simp only [List.length_cons]
      omega
    · simp

/-- C22 as stated fails: the text the byte string entry draws is not `s` itself. With the
selection holding the one byte `41` and `s` that byte, the entry draws the three chars
`"A"`, quotes included; with 40 bytes `41` it draws 37 chars, more than 35; with no
selection it draws the two quotes, not the empty text. -/
theorem string_drawn_in_quotes :
    stringDrawn (stringDecode (some ⟨16, 1⟩) (fun _ n => List.replicate n 0x41) id []
      Endian.little Style.Decimal) = [0x22, 0x41, 0x22] ∧
    stringDrawn (stringDecode (some ⟨16, 1⟩) (fun _ n => List.replicate n 0x41) id []
      Endian.little Style.Decimal) ≠ [0x41] ∧
    (stringDrawn (stringDecode (some ⟨16, 40⟩) (fun _ n => List.replicate n 0x41) id []
      Endian.little Style.Decimal)).length = 37 ∧
    stringDrawn (stringDecode none (fun _ n => List.replicate n 0x41) id []
      Endian.little Style.Decimal) = [0x22, 0x22] ∧
    stringDrawn (stringDecode none (fun _ n => List.replicate n 0x41) id []
      Endian.little Style.Decimal) ≠ [] := by
  decide

/-- C22 (amended): with a selection present and `s` the escaped string of the bytes read
(at most 4096 of the selection), the byte string entry returns `s` in full as the copy
text, and the text it draws is a double quote, then (`s` holding no NUL char) `s` itself
when `s` has at most 32 chars and otherwise the first 32 chars of `s` followed by `...`,
then a double quote; the text drawn never exceeds 37 chars. With no selection the copy
text is empty and the text drawn is the two double quotes. -/
theorem string_drawn_and_copied (currSelection : Option Region)
    (read : Nat → Nat → List UInt8) (encodeByteString : List UInt8 → List UInt8)
    (buffer : List UInt8) (endian : Endian) (style : Style) :
    (∀ selection, currSelection = some selection →
      (stringDecode currSelection read encodeByteString buffer endian style).copyValue =
          encodeByteString (read selection.address (Nat.min selection.size 4096)) ∧
        ((0 : UInt8) ∉ encodeByteString (read selection.address (Nat.min selection.size 4096)) →
          (encodeByteString (read selection.address (Nat.min selection.size 4096))).length ≤ 32 →
          stringDrawn (stringDecode currSelection read encodeByteString buffer endian style) =
            [quote] ++ encodeByteString (read selection.address (Nat.min selection.size 4096))
              ++ [quote]) ∧
        ((0 : UInt8) ∉ encodeByteString (read selection.address (Nat.min selection.size 4096)) →
          32 < (encodeByteString (read selection.address (Nat.min selection.size 4096))).length →
          stringDrawn (stringDecode currSelection read encodeByteString buffer endian style) =
            [quote] ++
              ((encodeByteString (read selection.address (Nat.min selection.size 4096))).take 32
                ++ ellipsis) ++ [quote]) ∧
        (stringDrawn (stringDecode currSelection read encodeByteString buffer endian
          style)).length ≤ 37) ∧
    (currSelection = none →
      (stringDecode currSelection read encodeByteString buffer endian style).copyValue = [] ∧
      stringDrawn (stringDecode currSelection read encodeByteString buffer endian style) =
        [quote, quote]) := by
  obtain ⟨hsome, hnone⟩ :=
    string_display_and_copy currSelection read encodeByteString buffer endian style
  constructor
  · intro selection hsel
    obtain ⟨hcopy, hshort, hlong, hlen⟩ := hsome selection hsel
    refine ⟨hcopy, ?_, ?_, ?_⟩
    · intro hnul hle
      unfold stringDrawn
      rw [hshort hle, c_str_of_no_nul _ hnul]
    · intro hnul hgt
      have hno : (0 : UInt8) ∉
          (encodeByteString (read selection.address (Nat.min selection.size 4096))).take 32
            ++ ellipsis := by
        intro hmem
        rcases List.mem_append.mp hmem with h | h
        · exact hnul (List.mem_of_mem_take h)
        · exact absurd h (by decide)
      unfold stringDrawn
      rw [hlong hgt, c_str_of_no_nul _ hno]
    · have := c_str_length_le
        (stringDecode currSelection read encodeByteString buffer endian style).value
      unfold stringDrawn
      simp only [List.length_append, List.length_singleton]
      omega
  · intro h
    rw [hnone h]
    exact ⟨rfl, rfl⟩

theorem string_drawn_and_copied_witness :
    (stringDecode (some ⟨16, 40⟩) (fun _ n => List.replicate n 0x41) id [] Endian.little
      Style.Decimal).copyValue = List.replicate 40 0x41 ∧
    stringDrawn (stringDecode (some ⟨16, 40⟩) (fun _ n => List.replicate n 0x41) id []
      Endian.little Style.Decimal) =
        [quote] ++ (List.replicate 32 0x41 ++ ellipsis) ++ [quote] ∧
    stringDrawn (stringDecode (some ⟨16, 3⟩) (fun _ n => List.replicate n 0x41) id []
      Endian.little Style.Decimal) = [quote] ++ List.replicate 3 0x41 ++ [quote] ∧
    stringDrawn (stringDecode none (fun _ n => List.replicate n 0x41) id []
      Endian.little Style.Decimal) = [quote, quote] :=
  ⟨((string_drawn_and_copied (some ⟨16, 40⟩) (fun _ n => List.replicate n 0x41) id []
      Endian.little Style.Decimal).1 ⟨16, 40⟩ rfl).1.trans (by decide),
    (((string_drawn_and_copied (some ⟨16, 40⟩) (fun _ n => List.replicate n 0x41) id []
      Endian.little Style.Decimal).1 ⟨16, 40⟩ rfl).2.2.1 (by decide) (by decide)).trans
      (by decide),
    (((string_drawn_and_copied (some ⟨16, 3⟩) (fun _ n => List.replicate n 0x41) id []
      Endian.little Style.Decimal).1 ⟨16, 3⟩ rfl).2.1 (by decide) (by decide)).trans
      (by decide),
    ((string_drawn_and_copied none (fun _ n => List.replicate n 0x41) id []
      Endian.little Style.Decimal).2 rfl).2⟩

end DataInspector
